import Mathlib

/-!
# Verification of `heap.h`: `binary_heap` and `rb_heap`

Shallow embedding of the two priority queues of `include/heap.h`, of the
lockstep driver of `test/tester.cpp` and of the command loop of `src/main.cpp`.

* `std::vector<T> values_` is a `List α`; `std::size_t` indices are `Nat`.
  Every index the code computes is bounded by twice the vector length, and
  `get_parent_index` is reached only behind `!is_root`, so no `size_t`
  operation wraps on the executions of `push` and `pop`. For `sift_down` from
  an arbitrary start index, `sift_down_size_t` computes the child indices
  modulo `2^64`.
* `Comp` is a Boolean function `comp_ : α → α → Bool`.
* Reading or writing outside `values_`, and `assert(false)`, end the run:
  operations return `Except Fault _`.
* `while` loops are structural recursions on a fuel argument; the entry points
  supply a fuel that is proved sufficient (`Fault.fuel_exhausted` is never
  returned).
-/

namespace heap

/-- Ways in which a call can fail to produce a result. -/
inductive Fault where
  /-- The statement `assert(false)` was reached. -/
  | assertion_failed
  /-- An element outside `values_` was read or written (undefined behaviour in C++). -/
  | out_of_range
  /-- The fuel given to a loop ran out (does not happen for the fuel the entry points pass). -/
  | fuel_exhausted
  deriving DecidableEq

/-- The requirement the C++ standard puts on `Comp`: a strict weak ordering. -/
structure strict_weak_ordering {α : Type} (comp : α → α → Bool) : Prop where
  irrefl : ∀ a, comp a a = false
  trans : ∀ a b c, comp a b = true → comp b c = true → comp a c = true
  incomp_trans : ∀ a b c, comp a b = false → comp b a = false →
    comp b c = false → comp c b = false → comp a c = false ∧ comp c a = false

/-- The comparator `std::less<int>`. -/
def less (a b : Int) : Bool := decide (a < b)

/-- The comparator `std::greater<int>`. -/
def greater (a b : Int) : Bool := decide (a > b)

/-! ## `binary_heap` -/

/-- The class `binary_heap<T, Comp>`: its two data members. -/
structure binary_heap (α : Type) where
  values_ : List α
  comp_ : α → α → Bool

namespace binary_heap

variable {α : Type}

/-- Member `get_left_child_index`. -/
def get_left_child_index (node_index : Nat) : Nat := 2 * node_index + 1

/-- Member `get_right_child_index`. -/
def get_right_child_index (node_index : Nat) : Nat := 2 * node_index + 2

/-- Member `get_parent_index`; the code calls it on non-root indices only. -/
def get_parent_index (node_index : Nat) : Nat := (node_index - 1) / 2

/-- Member `is_root`. -/
def is_root (node_index : Nat) : Bool := node_index == 0

/-- Member `has_left_child`. -/
def has_left_child (node_index nodes_count : Nat) : Bool :=
  decide (get_left_child_index node_index < nodes_count)

/-- Member `has_right_child`. -/
def has_right_child (node_index nodes_count : Nat) : Bool :=
  decide (get_right_child_index node_index < nodes_count)

/-- Member `is_leaf`. -/
def is_leaf (node_index nodes_count : Nat) : Bool :=
  !has_left_child node_index nodes_count && !has_right_child node_index nodes_count

/-- Member `compare_nodes`: `comp_(values_[lhs_index], values_[rhs_index])`. -/
def compare_nodes (comp_ : α → α → Bool) (values_ : List α) (lhs_index rhs_index : Nat) :
    Except Fault Bool :=
  match values_[lhs_index]?, values_[rhs_index]? with
  | some a, some b => .ok (comp_ a b)
  | _, _ => .error .out_of_range

/-- Member `swap_nodes`: `std::swap(values_[lhs_index], values_[rhs_index])`. -/
def swap_nodes (values_ : List α) (lhs_index rhs_index : Nat) : Except Fault (List α) :=
  match values_[lhs_index]?, values_[rhs_index]? with
  | some a, some b => .ok ((values_.set lhs_index b).set rhs_index a)
  | _, _ => .error .out_of_range

/-- The `while` loop of `sift_up`, one iteration per unit of fuel. -/
def sift_up_loop (comp_ : α → α → Bool) : Nat → List α → Nat → Except Fault (List α)
  | 0, _, _ => .error .fuel_exhausted
  | fuel + 1, values_, node_index =>
    if is_root node_index then .ok values_
    else
      let parent_index := get_parent_index node_index
      match compare_nodes comp_ values_ node_index parent_index with
      | .error e => .error e
      | .ok true =>
        match swap_nodes values_ node_index parent_index with
        | .error e => .error e
        | .ok swapped => sift_up_loop comp_ fuel swapped parent_index
      | .ok false => .ok values_

/-- Member `sift_up`. -/
def sift_up (comp_ : α → α → Bool) (values_ : List α) (node_index : Nat) :
    Except Fault (List α) :=
  sift_up_loop comp_ (node_index + 1) values_ node_index

/-- The `while` loop of `sift_down`, one iteration per unit of fuel;
`nodes_count` is the value read once before the loop. -/
def sift_down_loop (comp_ : α → α → Bool) (nodes_count : Nat) :
    Nat → List α → Nat → Except Fault (List α)
  | 0, _, _ => .error .fuel_exhausted
  | fuel + 1, values_, node_index =>
    if is_leaf node_index nodes_count then .ok values_
    else
      let has_left := has_left_child node_index nodes_count
      let has_right := has_right_child node_index nodes_count
      if has_left && has_right then
        let left_child_index := get_left_child_index node_index
        let right_child_index := get_right_child_index node_index
        match compare_nodes comp_ values_ left_child_index right_child_index with
        | .error e => .error e
        | .ok true =>
          match compare_nodes comp_ values_ left_child_index node_index with
          | .error e => .error e
          | .ok true =>
            match swap_nodes values_ left_child_index node_index with
            | .error e => .error e
            | .ok swapped => sift_down_loop comp_ nodes_count fuel swapped left_child_index
          | .ok false => .ok values_
        | .ok false =>
          match compare_nodes comp_ values_ right_child_index node_index with
          | .error e => .error e
          | .ok true =>
            match swap_nodes values_ right_child_index node_index with
            | .error e => .error e
            | .ok swapped => sift_down_loop comp_ nodes_count fuel swapped right_child_index
          | .ok false => .ok values_
      else if has_left then
        let left_child_index := get_left_child_index node_index
        match compare_nodes comp_ values_ left_child_index node_index with
        | .error e => .error e
        | .ok true =>
          match swap_nodes values_ left_child_index node_index with
          | .error e => .error e
          | .ok swapped => sift_down_loop comp_ nodes_count fuel swapped left_child_index
        | .ok false => .ok values_
      else if has_right then
        let right_child_index := get_right_child_index node_index
        match compare_nodes comp_ values_ right_child_index node_index with
        | .error e => .error e
        | .ok true =>
          match swap_nodes values_ right_child_index node_index with
          | .error e => .error e
          | .ok swapped => sift_down_loop comp_ nodes_count fuel swapped right_child_index
        | .ok false => .ok values_
      else .ok values_

/-- Member `sift_down`. -/
def sift_down (comp_ : α → α → Bool) (values_ : List α) (node_index : Nat) :
    Except Fault (List α) :=
  sift_down_loop comp_ values_.length (values_.length + 1) values_ node_index

/-- Constructor `binary_heap(const Comp& comp)`: the empty heap. -/
def mk_empty (comp : α → α → Bool) : binary_heap α := { values_ := [], comp_ := comp }

/-- Member `top`: `values_[0]`, with no check of its own. -/
def top (h : binary_heap α) : Except Fault α :=
  match h.values_[0]? with
  | some v => .ok v
  | none => .error .out_of_range

/-- Member `empty`. -/
def empty (h : binary_heap α) : Bool := h.values_.isEmpty

/-- Member `size`. -/
def size (h : binary_heap α) : Nat := h.values_.length

/-- Member `clear`. -/
def clear (h : binary_heap α) : binary_heap α := { h with values_ := [] }

/-- Member `push`: `push_back`, then `sift_up(size() - 1)`. -/
def push (h : binary_heap α) (value : α) : Except Fault (binary_heap α) :=
  let pushed := h.values_ ++ [value]
  match sift_up h.comp_ pushed (pushed.length - 1) with
  | .error e => .error e
  | .ok values => .ok { h with values_ := values }

/-- Member `pop`: the assertion, `swap_nodes(0, size() - 1)`, `pop_back`, `sift_down(0)`. -/
def pop (h : binary_heap α) : Except Fault (binary_heap α) :=
  if h.empty then .error .assertion_failed
  else
    match swap_nodes h.values_ 0 (h.values_.length - 1) with
    | .error e => .error e
    | .ok swapped =>
      match sift_down h.comp_ swapped.dropLast 0 with
      | .error e => .error e
      | .ok values => .ok { h with values_ := values }

/-- Member `insert(first, last)`: `push` of every element of the range, in order. -/
def insert (h : binary_heap α) : List α → Except Fault (binary_heap α)
  | [] => .ok h
  | x :: rest =>
    match h.push x with
    | .error e => .error e
    | .ok h' => insert h' rest

/-- The client loop `while (!h.empty()) { record h.top(); h.pop(); }`, one
iteration per unit of fuel. -/
def drain_loop : Nat → binary_heap α → Except Fault (List α)
  | 0, h => if h.empty then .ok [] else .error .fuel_exhausted
  | fuel + 1, h =>
    if h.empty then .ok []
    else
      match h.top with
      | .error e => .error e
      | .ok t =>
        match h.pop with
        | .error e => .error e
        | .ok h' =>
          match drain_loop fuel h' with
          | .error e => .error e
          | .ok rest => .ok (t :: rest)

/-- Extraction sequence of a heap: `top`/`pop` until `empty`. -/
def drain (h : binary_heap α) : Except Fault (List α) := drain_loop h.size h

/-- One call made by a client of `binary_heap`. -/
inductive operation (α : Type) where
  | push (value : α)
  | pop

/-- Effect of one client call. -/
def apply_operation (h : binary_heap α) : operation α → Except Fault (binary_heap α)
  | .push value => h.push value
  | .pop => h.pop

/-- Effect of a finite sequence of client calls, in order; a failing call ends the run. -/
def run (h : binary_heap α) : List (operation α) → Except Fault (binary_heap α)
  | [] => .ok h
  | op :: rest =>
    match h.apply_operation op with
    | .error e => .error e
    | .ok h' => run h' rest

/-- Number of `push` calls in a sequence. -/
def count_push : List (operation α) → Nat
  | [] => 0
  | .push _ :: rest => count_push rest + 1
  | .pop :: rest => count_push rest

/-- Number of `pop` calls in a sequence. -/
def count_pop : List (operation α) → Nat
  | [] => 0
  | .push _ :: rest => count_pop rest
  | .pop :: rest => count_pop rest + 1

/-- The heap-order invariant on the array: no non-root node compares before its parent. -/
def heap_ordered (comp : α → α → Bool) (values : List α) : Prop :=
  ∀ i a b, 0 < i → values[i]? = some a → values[get_parent_index i]? = some b →
    comp a b = false

/-- Heap order with the edge above `node_index` exempt, as `sift_up` meets it:
every other edge is in order, and the children of `node_index` are in order with its parent. -/
def ordered_except_above (comp : α → α → Bool) (values : List α) (node_index : Nat) : Prop :=
  (∀ j a b, 0 < j → j ≠ node_index → values[j]? = some a →
      values[get_parent_index j]? = some b → comp a b = false) ∧
  (∀ j a b, 0 < j → 0 < node_index → get_parent_index j = node_index → values[j]? = some a →
      values[get_parent_index node_index]? = some b → comp a b = false)

/-- Heap order with the edges below `node_index` exempt, as `sift_down` meets it:
every other edge is in order, and the children of `node_index` are in order with its parent. -/
def ordered_except_below (comp : α → α → Bool) (values : List α) (node_index : Nat) : Prop :=
  (∀ j a b, 0 < j → get_parent_index j ≠ node_index → values[j]? = some a →
      values[get_parent_index j]? = some b → comp a b = false) ∧
  (∀ j a b, 0 < j → 0 < node_index → get_parent_index j = node_index → values[j]? = some a →
      values[get_parent_index node_index]? = some b → comp a b = false)

/-- The tail of one `sift_down` iteration once a child is selected: compare it with the
node, swap and continue from the child, or stop. -/
def sift_down_try (comp_ : α → α → Bool) (nodes_count fuel : Nat) (values_ : List α)
    (child_index node_index : Nat) : Except Fault (List α) :=
  match compare_nodes comp_ values_ child_index node_index with
  | .error e => .error e
  | .ok true =>
    match swap_nodes values_ child_index node_index with
    | .error e => .error e
    | .ok swapped => sift_down_loop comp_ nodes_count fuel swapped child_index
  | .ok false => .ok values_

end binary_heap

/-! ## `rb_heap` -/

/-- The class `rb_heap<T, Comp>`: its data member is a `std::set<T, Comp>`, held
here as the list of its elements in iteration order, with the comparator it was built with. -/
structure rb_heap (α : Type) where
  values_ : List α
  comp_ : α → α → Bool

namespace rb_heap

variable {α : Type}

/-- Library call `std::set<T, Comp>::insert(value)` on the elements in iteration order: the value goes
before the first element it compares before; when an element equivalent to it
(neither compares before the other) is met, the set is left as it is. -/
def std_set_insert (comp : α → α → Bool) (value : α) : List α → List α
  | [] => [value]
  | x :: rest =>
    if comp value x then value :: x :: rest
    else if comp x value then x :: std_set_insert comp value rest
    else x :: rest

/-- Constructor `rb_heap(const Comp& comp)`: the empty heap. -/
def mk_empty (comp : α → α → Bool) : rb_heap α := { values_ := [], comp_ := comp }

/-- Member `top`: `*values_.cbegin()`, with no check of its own. -/
def top (h : rb_heap α) : Except Fault α :=
  match h.values_.head? with
  | some v => .ok v
  | none => .error .out_of_range

/-- Member `empty`. -/
def empty (h : rb_heap α) : Bool := h.values_.isEmpty

/-- Member `size`. -/
def size (h : rb_heap α) : Nat := h.values_.length

/-- Member `clear`. -/
def clear (h : rb_heap α) : rb_heap α := { h with values_ := [] }

/-- Member `push`: `values_.insert(value)`. -/
def push (h : rb_heap α) (value : α) : rb_heap α :=
  { h with values_ := std_set_insert h.comp_ value h.values_ }

/-- Member `pop`: the assertion, then `values_.erase(values_.begin())`. -/
def pop (h : rb_heap α) : Except Fault (rb_heap α) :=
  if h.empty then .error .assertion_failed
  else .ok { h with values_ := h.values_.tail }

/-- Calls `push` on every element of a list, in order. -/
def push_all (h : rb_heap α) : List α → rb_heap α
  | [] => h
  | x :: rest => push_all (h.push x) rest

/-- The client loop `while (!h.empty()) { record h.top(); h.pop(); }`, one
iteration per unit of fuel. -/
def drain_loop : Nat → rb_heap α → Except Fault (List α)
  | 0, h => if h.empty then .ok [] else .error .fuel_exhausted
  | fuel + 1, h =>
    if h.empty then .ok []
    else
      match h.top with
      | .error e => .error e
      | .ok t =>
        match h.pop with
        | .error e => .error e
        | .ok h' =>
          match drain_loop fuel h' with
          | .error e => .error e
          | .ok rest => .ok (t :: rest)

/-- Extraction sequence of a heap: `top`/`pop` until `empty`. -/
def drain (h : rb_heap α) : Except Fault (List α) := drain_loop h.size h

end rb_heap

/-! ## The lockstep driver of `tester.cpp` -/

namespace testing

/-- The state-changing commands of `run_test` (`TOP` only reads). -/
inductive binary_heap_command where
  | PUSH (insert_value : Int)
  | POP

/-- The two heaps `run_test` drives side by side. -/
structure heaps where
  array_heap : binary_heap Int
  tree_heap : rb_heap Int

/-- Start of `run_test`: `binary_heap<int>{}` and `rb_heap<int>{}`. -/
def start : heaps :=
  { array_heap := binary_heap.mk_empty less, tree_heap := rb_heap.mk_empty less }

/-- One iteration of the command loop of `run_test`: `PUSH` pushes the value on both
heaps; `POP` pops both when neither is empty and does nothing otherwise. -/
def run_command (s : heaps) : binary_heap_command → Except Fault heaps
  | .PUSH insert_value =>
    match s.array_heap.push insert_value with
    | .error e => .error e
    | .ok a => .ok { array_heap := a, tree_heap := s.tree_heap.push insert_value }
  | .POP =>
    if !s.array_heap.empty && !s.tree_heap.empty then
      match s.array_heap.pop with
      | .error e => .error e
      | .ok a =>
        match s.tree_heap.pop with
        | .error e => .error e
        | .ok t => .ok { array_heap := a, tree_heap := t }
    else .ok s

/-- The command loop of `run_test` on a given command sequence. -/
def run_commands (s : heaps) : List binary_heap_command → Except Fault heaps
  | [] => .ok s
  | c :: rest =>
    match run_command s c with
    | .error e => .error e
    | .ok s' => run_commands s' rest

end testing

/-! ## Further definitions: constructors, selection in `sift_down`, traces -/

namespace binary_heap

variable {α : Type}

/-- Constructor `binary_heap(Iter first, Iter last, const Comp& comp)`: the empty heap,
then `insert(first, last)`. -/
def mk_range (xs : List α) (comp : α → α → Bool) : Except Fault (binary_heap α) :=
  (mk_empty comp).insert xs

/-- Constructor `binary_heap(std::initializer_list<T> init, const Comp& comp)`: delegates to
the range constructor on `std::begin(init), std::end(init)`. -/
def mk_initializer_list (init : List α) (comp : α → α → Bool) : Except Fault (binary_heap α) :=
  mk_range init comp

/-- The child `sift_down` selects at a node with both children (lines 112-128): the left
one when `compare_nodes(left_child_index, right_child_index)` holds, the right one otherwise. -/
def selected_child (comp_ : α → α → Bool) (values_ : List α) (node_index : Nat) :
    Except Fault Nat :=
  match compare_nodes comp_ values_ (get_left_child_index node_index)
      (get_right_child_index node_index) with
  | .error e => .error e
  | .ok true => .ok (get_left_child_index node_index)
  | .ok false => .ok (get_right_child_index node_index)

/-- The loop of `sift_down` with the branch `else if (has_right)` removed, all else as in
`sift_down_loop`. -/
def sift_down_loop_without_right_only (comp_ : α → α → Bool) (nodes_count : Nat) :
    Nat → List α → Nat → Except Fault (List α)
  | 0, _, _ => .error .fuel_exhausted
  | fuel + 1, values_, node_index =>
    if is_leaf node_index nodes_count then .ok values_
    else
      let has_left := has_left_child node_index nodes_count
      let has_right := has_right_child node_index nodes_count
      if has_left && has_right then
        let left_child_index := get_left_child_index node_index
        let right_child_index := get_right_child_index node_index
        match compare_nodes comp_ values_ left_child_index right_child_index with
        | .error e => .error e
        | .ok true =>
          match compare_nodes comp_ values_ left_child_index node_index with
          | .error e => .error e
          | .ok true =>
            match swap_nodes values_ left_child_index node_index with
            | .error e => .error e
            | .ok swapped =>
              sift_down_loop_without_right_only comp_ nodes_count fuel swapped left_child_index
          | .ok false => .ok values_
        | .ok false =>
          match compare_nodes comp_ values_ right_child_index node_index with
          | .error e => .error e
          | .ok true =>
            match swap_nodes values_ right_child_index node_index with
            | .error e => .error e
            | .ok swapped =>
              sift_down_loop_without_right_only comp_ nodes_count fuel swapped right_child_index
          | .ok false => .ok values_
      else if has_left then
        let left_child_index := get_left_child_index node_index
        match compare_nodes comp_ values_ left_child_index node_index with
        | .error e => .error e
        | .ok true =>
          match swap_nodes values_ left_child_index node_index with
          | .error e => .error e
          | .ok swapped =>
            sift_down_loop_without_right_only comp_ nodes_count fuel swapped left_child_index
        | .ok false => .ok values_
      else .ok values_

/-- The function `sift_down` with the branch `else if (has_right)` removed. -/
def sift_down_without_right_only (comp_ : α → α → Bool) (values_ : List α) (node_index : Nat) :
    Except Fault (List α) :=
  sift_down_loop_without_right_only comp_ values_.length (values_.length + 1) values_ node_index

end binary_heap

/-- A comparator with ties between distinct values: pairs are compared on their first
component only. -/
def less_key (a b : Int × Int) : Bool := decide (a.1 < b.1)

namespace rb_heap

variable {α : Type}

/-- The class invariant of `std::set<T, Comp>` on the elements in iteration order: each
element compares before every later one. -/
def set_ordered (comp : α → α → Bool) (values : List α) : Prop :=
  values.Pairwise (fun a b => comp a b = true)

/-- Effect of one client call on an `rb_heap`. -/
def apply_operation (h : rb_heap α) : binary_heap.operation α → Except Fault (rb_heap α)
  | .push value => .ok (h.push value)
  | .pop => h.pop

/-- Effect of a finite sequence of client calls, in order; a failing call ends the run. -/
def run (h : rb_heap α) : List (binary_heap.operation α) → Except Fault (rb_heap α)
  | [] => .ok h
  | op :: rest =>
    match h.apply_operation op with
    | .error e => .error e
    | .ok h' => run h' rest

end rb_heap

/-! ## The command loop of `main.cpp` -/

namespace cli

/-- One command token sequence read by the loop of `run`: `Insert <value>`, `ExtractMax`,
or any other word. -/
inductive command where
  | Insert (value : Int)
  | ExtractMax
  | other (command_name : String)

/-- One line written by the loop of `run`. -/
inductive output where
  /-- The line `heap.top()`. -/
  | value (top : Int)
  /-- The line `The heap is empty!`. -/
  | heap_is_empty
  /-- The line `Unknown command: <command_name>`. -/
  | unknown_command (command_name : String)
  deriving DecidableEq

/-- The body of the `for` loop of `run`, over the commands still to be read; the result is
the list of lines written. -/
def run_loop (heap : binary_heap Int) : List command → Except Fault (List output)
  | [] => .ok []
  | .Insert value :: rest =>
    match heap.push value with
    | .error e => .error e
    | .ok heap' => run_loop heap' rest
  | .ExtractMax :: rest =>
    if heap.empty then
      match run_loop heap rest with
      | .error e => .error e
      | .ok lines => .ok (.heap_is_empty :: lines)
    else
      match heap.top with
      | .error e => .error e
      | .ok top =>
        match heap.pop with
        | .error e => .error e
        | .ok heap' =>
          match run_loop heap' rest with
          | .error e => .error e
          | .ok lines => .ok (.value top :: lines)
  | .other command_name :: rest =>
    match run_loop heap rest with
    | .error e => .error e
    | .ok lines => .ok (.unknown_command command_name :: lines)

/-- The function `run` of `main.cpp` on the commands of its input: a
`binary_heap<int, std::greater<int>>` driven by the command loop. -/
def run (commands : List command) : Except Fault (List output) :=
  run_loop (binary_heap.mk_empty greater) commands

end cli

/-! ## Traces: the element accesses and `size_t` decrements of each call -/

namespace binary_heap

variable {α : Type}

/-- One step of a call that touches `values_` or decrements a `std::size_t`. -/
inductive event where
  /-- Evaluation of `value - 1` on `std::size_t`: `node_index - 1` in `get_parent_index`,
  `size() - 1` in `push` and `pop`. -/
  | decrement (value : Nat)
  /-- A call `compare_nodes(lhs_index, rhs_index)`, reading both elements of a vector of
  the given length. -/
  | compare (lhs_index rhs_index length : Nat)
  /-- A call `swap_nodes(lhs_index, rhs_index)`, writing both elements of a vector of the
  given length. -/
  | swap (lhs_index rhs_index length : Nat)
  deriving DecidableEq

/-- The step stays inside the vector and does not wrap below zero. -/
def event.safe : event → Bool
  | .decrement value => decide (0 < value)
  | .compare lhs_index rhs_index length => decide (lhs_index < length ∧ rhs_index < length)
  | .swap lhs_index rhs_index length => decide (lhs_index < length ∧ rhs_index < length)

/-- The step is a swap. -/
def event.is_swap : event → Bool
  | .swap _ _ _ => true
  | _ => false

/-- Number of swaps in a trace. -/
def swap_count (trace : List event) : Nat := trace.countP event.is_swap

/-- The loop of `sift_up` as in `sift_up_loop`, returning with its result the steps it
made, in order. -/
def sift_up_loop_traced (comp_ : α → α → Bool) :
    Nat → List α → Nat → Except Fault (List α) × List event
  | 0, _, _ => (.error .fuel_exhausted, [])
  | fuel + 1, values_, node_index =>
    if is_root node_index then (.ok values_, [])
    else
      let parent_index := get_parent_index node_index
      let compared :=
        [event.decrement node_index, event.compare node_index parent_index values_.length]
      match compare_nodes comp_ values_ node_index parent_index with
      | .error e => (.error e, compared)
      | .ok true =>
        let swapping := compared ++ [event.swap node_index parent_index values_.length]
        match swap_nodes values_ node_index parent_index with
        | .error e => (.error e, swapping)
        | .ok swapped =>
          let rest := sift_up_loop_traced comp_ fuel swapped parent_index
          (rest.1, swapping ++ rest.2)
      | .ok false => (.ok values_, compared)

/-- The function `sift_up` with its trace. -/
def sift_up_traced (comp_ : α → α → Bool) (values_ : List α) (node_index : Nat) :
    Except Fault (List α) × List event :=
  sift_up_loop_traced comp_ (node_index + 1) values_ node_index

/-- The tail of one `sift_down` iteration once a child is selected, as in `sift_down_try`,
with its trace; `continue_from` is the rest of the loop, run from the child. -/
def sift_down_try_traced (comp_ : α → α → Bool) (values_ : List α)
    (child_index node_index : Nat)
    (continue_from : List α → Except Fault (List α) × List event) :
    Except Fault (List α) × List event :=
  let compared := [event.compare child_index node_index values_.length]
  match compare_nodes comp_ values_ child_index node_index with
  | .error e => (.error e, compared)
  | .ok true =>
    let swapping := compared ++ [event.swap child_index node_index values_.length]
    match swap_nodes values_ child_index node_index with
    | .error e => (.error e, swapping)
    | .ok swapped =>
      let rest := continue_from swapped
      (rest.1, swapping ++ rest.2)
  | .ok false => (.ok values_, compared)

/-- The loop of `sift_down` as in `sift_down_loop`, returning with its result the steps it
made, in order. -/
def sift_down_loop_traced (comp_ : α → α → Bool) (nodes_count : Nat) :
    Nat → List α → Nat → Except Fault (List α) × List event
  | 0, _, _ => (.error .fuel_exhausted, [])
  | fuel + 1, values_, node_index =>
    if is_leaf node_index nodes_count then (.ok values_, [])
    else
      let has_left := has_left_child node_index nodes_count
      let has_right := has_right_child node_index nodes_count
      let left_child_index := get_left_child_index node_index
      let right_child_index := get_right_child_index node_index
      if has_left && has_right then
        let compared := [event.compare left_child_index right_child_index values_.length]
        match compare_nodes comp_ values_ left_child_index right_child_index with
        | .error e => (.error e, compared)
        | .ok true =>
          let rest := sift_down_try_traced comp_ values_ left_child_index node_index
            (fun swapped => sift_down_loop_traced comp_ nodes_count fuel swapped left_child_index)
          (rest.1, compared ++ rest.2)
        | .ok false =>
          let rest := sift_down_try_traced comp_ values_ right_child_index node_index
            (fun swapped => sift_down_loop_traced comp_ nodes_count fuel swapped right_child_index)
          (rest.1, compared ++ rest.2)
      else if has_left then
        sift_down_try_traced comp_ values_ left_child_index node_index
          (fun swapped => sift_down_loop_traced comp_ nodes_count fuel swapped left_child_index)
      else if has_right then
        sift_down_try_traced comp_ values_ right_child_index node_index
          (fun swapped => sift_down_loop_traced comp_ nodes_count fuel swapped right_child_index)
      else (.ok values_, [])

/-- The function `sift_down` with its trace. -/
def sift_down_traced (comp_ : α → α → Bool) (values_ : List α) (node_index : Nat) :
    Except Fault (List α) × List event :=
  sift_down_loop_traced comp_ values_.length (values_.length + 1) values_ node_index

/-- The function `push` with its trace: `size() - 1` on the grown vector, then `sift_up`. -/
def push_traced (h : binary_heap α) (value : α) :
    Except Fault (binary_heap α) × List event :=
  let pushed := h.values_ ++ [value]
  let sifted := sift_up_traced h.comp_ pushed (pushed.length - 1)
  let trace := event.decrement pushed.length :: sifted.2
  match sifted.1 with
  | .error e => (.error e, trace)
  | .ok values => (.ok { h with values_ := values }, trace)

/-- The function `pop` with its trace: `size() - 1`, the swap of the first and last
elements, then `sift_down` on the shrunk vector. -/
def pop_traced (h : binary_heap α) : Except Fault (binary_heap α) × List event :=
  if h.empty then (.error .assertion_failed, [])
  else
    let swapping :=
      [event.decrement h.values_.length,
        event.swap 0 (h.values_.length - 1) h.values_.length]
    match swap_nodes h.values_ 0 (h.values_.length - 1) with
    | .error e => (.error e, swapping)
    | .ok swapped =>
      let sifted := sift_down_traced h.comp_ swapped.dropLast 0
      match sifted.1 with
      | .error e => (.error e, swapping ++ sifted.2)
      | .ok values => (.ok { h with values_ := values }, swapping ++ sifted.2)

end binary_heap

/-! ## `sift_down` on 64-bit `std::size_t` indices -/

namespace binary_heap

variable {α : Type}

/-- Number of values of a 64-bit `std::size_t`; unsigned arithmetic is taken modulo it. -/
def size_t_range : Nat := 2 ^ 64

/-- Member `get_left_child_index` on `std::size_t`: `2 * node_index + 1` wraps. -/
def get_left_child_index_size_t (node_index : Nat) : Nat :=
  (2 * node_index + 1) % size_t_range

/-- Member `get_right_child_index` on `std::size_t`: `2 * node_index + 2` wraps. -/
def get_right_child_index_size_t (node_index : Nat) : Nat :=
  (2 * node_index + 2) % size_t_range

/-- Member `has_left_child` on `std::size_t`. -/
def has_left_child_size_t (node_index nodes_count : Nat) : Bool :=
  decide (get_left_child_index_size_t node_index < nodes_count)

/-- Member `has_right_child` on `std::size_t`. -/
def has_right_child_size_t (node_index nodes_count : Nat) : Bool :=
  decide (get_right_child_index_size_t node_index < nodes_count)

/-- Member `is_leaf` on `std::size_t`. -/
def is_leaf_size_t (node_index nodes_count : Nat) : Bool :=
  !has_left_child_size_t node_index nodes_count && !has_right_child_size_t node_index nodes_count

/-- The `while` loop of `sift_down` with the index helpers computed on `std::size_t`, one
iteration per unit of fuel; all else as in `sift_down_loop`. -/
def sift_down_loop_size_t (comp_ : α → α → Bool) (nodes_count : Nat) :
    Nat → List α → Nat → Except Fault (List α)
  | 0, _, _ => .error .fuel_exhausted
  | fuel + 1, values_, node_index =>
    if is_leaf_size_t node_index nodes_count then .ok values_
    else
      let has_left := has_left_child_size_t node_index nodes_count
      let has_right := has_right_child_size_t node_index nodes_count
      if has_left && has_right then
        let left_child_index := get_left_child_index_size_t node_index
        let right_child_index := get_right_child_index_size_t node_index
        match compare_nodes comp_ values_ left_child_index right_child_index with
        | .error e => .error e
        | .ok true =>
          match compare_nodes comp_ values_ left_child_index node_index with
          | .error e => .error e
          | .ok true =>
            match swap_nodes values_ left_child_index node_index with
            | .error e => .error e
            | .ok swapped => sift_down_loop_size_t comp_ nodes_count fuel swapped left_child_index
          | .ok false => .ok values_
        | .ok false =>
          match compare_nodes comp_ values_ right_child_index node_index with
          | .error e => .error e
          | .ok true =>
            match swap_nodes values_ right_child_index node_index with
            | .error e => .error e
            | .ok swapped => sift_down_loop_size_t comp_ nodes_count fuel swapped right_child_index
          | .ok false => .ok values_
      else if has_left then
        let left_child_index := get_left_child_index_size_t node_index
        match compare_nodes comp_ values_ left_child_index node_index with
        | .error e => .error e
        | .ok true =>
          match swap_nodes values_ left_child_index node_index with
          | .error e => .error e
          | .ok swapped => sift_down_loop_size_t comp_ nodes_count fuel swapped left_child_index
        | .ok false => .ok values_
      else if has_right then
        let right_child_index := get_right_child_index_size_t node_index
        match compare_nodes comp_ values_ right_child_index node_index with
        | .error e => .error e
        | .ok true =>
          match swap_nodes values_ right_child_index node_index with
          | .error e => .error e
          | .ok swapped => sift_down_loop_size_t comp_ nodes_count fuel swapped right_child_index
        | .ok false => .ok values_
      else .ok values_

/-- The function `sift_down` with the index helpers computed on `std::size_t`. -/
def sift_down_size_t (comp_ : α → α → Bool) (values_ : List α) (node_index : Nat) :
    Except Fault (List α) :=
  sift_down_loop_size_t comp_ values_.length (values_.length + 1) values_ node_index

end binary_heap

/-! ## Properties -/

namespace strict_weak_ordering

variable {α : Type} {comp : α → α → Bool}

theorem asymm (h : strict_weak_ordering comp) {a b : α} (hab : comp a b = true) :
    comp b a = false := by
  cases hba : comp b a with
  | false => rfl
  | true =>
    have haa := h.trans a b a hab hba
    rw [h.irrefl a] at haa
    exact absurd haa (by decide)

/-- Negative transitivity: `a` not after `b`, `b` not after `c`, hence `a` not after `c`. -/
theorem not_before_trans (h : strict_weak_ordering comp) {a b c : α}
    (hba : comp b a = false) (hcb : comp c b = false) : comp c a = false := by
  cases hca : comp c a with
  | false => rfl
  | true =>
    cases hab : comp a b with
    | true =>
      have := h.trans c a b hca hab
      rw [hcb] at this
      exact absurd this (by decide)
    | false =>
      cases hbc : comp b c with
      | true =>
        have := h.trans b c a hbc hca
        rw [hba] at this
        exact absurd this (by decide)
      | false =>
        have := (h.incomp_trans a b c hab hba hbc hcb).2
        rw [hca] at this
        exact absurd this (by decide)

end strict_weak_ordering

namespace binary_heap

variable {α : Type}

theorem get_parent_index_lt {i : Nat} (h : 0 < i) : get_parent_index i < i := by
  unfold get_parent_index; omega

theorem compare_nodes_of_get {comp : α → α → Bool} {vs : List α} {i j : Nat} {a b : α}
    (hi : vs[i]? = some a) (hj : vs[j]? = some b) :
    compare_nodes comp vs i j = .ok (comp a b) := by
  simp [compare_nodes, hi, hj]

theorem swap_nodes_of_get {vs : List α} {i j : Nat} {a b : α}
    (hi : vs[i]? = some a) (hj : vs[j]? = some b) :
    swap_nodes vs i j = .ok ((vs.set i b).set j a) := by
  simp [swap_nodes, hi, hj]

theorem get_lt_of_some {vs : List α} {i : Nat} {a : α} (hi : vs[i]? = some a) :
    i < vs.length := by
  rcases List.getElem?_eq_some.mp hi with ⟨h, _⟩
  exact h

theorem swapped_get {vs : List α} {i j : Nat} {a b : α}
    (hi : vs[i]? = some a) (hj : vs[j]? = some b) (k : Nat) :
    ((vs.set i b).set j a)[k]? =
      if k = j then some a else if k = i then some b else vs[k]? := by
  have hil := get_lt_of_some hi
  have hjl := get_lt_of_some hj
  by_cases hkj : k = j
  · subst hkj
    simp [List.getElem?_set, hjl]
  · by_cases hki : k = i
    · subst hki
      simp [List.getElem?_set, hil, hkj, Ne.symm hkj]
    · simp [List.getElem?_set, hki, hkj, Ne.symm hkj, Ne.symm hki]

theorem swapped_perm {vs : List α} {i j : Nat} {a b : α}
    (hi : vs[i]? = some a) (hj : vs[j]? = some b) :
    ((vs.set i b).set j a).Perm vs := by
  classical
  rcases List.getElem?_eq_some.mp hi with ⟨hil, hia⟩
  rcases List.getElem?_eq_some.mp hj with ⟨hjl, hjb⟩
  rw [List.perm_iff_count]
  intro x
  have hjl2 : j < (vs.set i b).length := by simpa using hjl
  rw [List.count_set _ _ _ _ hjl2, List.count_set _ _ _ _ hil]
  have hmem : a ∈ vs := hia ▸ List.getElem_mem hil
  have hpos : 0 < List.count a vs := List.count_pos_iff.mpr hmem
  have hsj : (vs.set i b)[j] = b := by
    rw [List.getElem_set]
    split
    · rfl
    · exact hjb
  rw [hsj, hia]
  by_cases hax : a = x
  · subst hax
    by_cases hbx : b = a
    · simp [hbx]; omega
    · simp [hbx]; omega
  · by_cases hbx : b = x
    · simp [hax, hbx]
    · simp [hax, hbx]

end binary_heap
namespace binary_heap

variable {α : Type}

theorem exists_get_of_lt {vs : List α} {i : Nat} (h : i < vs.length) :
    ∃ a, vs[i]? = some a :=
  ⟨vs[i], List.getElem?_eq_getElem h⟩

theorem swapped_length (vs : List α) (i j : Nat) (a b : α) :
    ((vs.set i b).set j a).length = vs.length := by
  simp

theorem sift_up_loop_ok (comp : α → α → Bool) :
    ∀ (fuel : Nat) (vs : List α) (i : Nat), i < fuel → i < vs.length →
      ∃ vs', sift_up_loop comp fuel vs i = .ok vs' ∧ vs'.Perm vs := by
  intro fuel
  induction fuel with
  | zero => intro vs i h; omega
  | succ fuel ih =>
    intro vs i hf hi
    unfold sift_up_loop
    by_cases hr : is_root i = true
    · simp [hr]
    · have hi0 : 0 < i := by
        simp [is_root] at hr; omega
      have hp := get_parent_index_lt hi0
      rcases exists_get_of_lt hi with ⟨a, hgi⟩
      rcases exists_get_of_lt (Nat.lt_trans hp hi) with ⟨b, hgp⟩
      simp only [hr, compare_nodes_of_get hgi hgp, swap_nodes_of_get hgi hgp]
      cases hc : comp a b with
      | false => simp
      | true =>
        simp only [Bool.false_eq_true, if_false]
        have hlen : get_parent_index i < ((vs.set i b).set (get_parent_index i) a).length := by
          rw [swapped_length]; omega
        rcases ih _ (get_parent_index i) (by omega) hlen with ⟨vs', h1, h2⟩
        exact ⟨vs', h1, h2.trans (swapped_perm hgi hgp)⟩

theorem sift_up_loop_ordered {comp : α → α → Bool} (hc : strict_weak_ordering comp) :
    ∀ (fuel : Nat) (vs : List α) (i : Nat) (vs' : List α),
      sift_up_loop comp fuel vs i = .ok vs' → ordered_except_above comp vs i →
      heap_ordered comp vs' := by
  intro fuel
  induction fuel with
  | zero => intro vs i vs' h; simp [sift_up_loop] at h
  | succ fuel ih =>
    intro vs i vs' hrun hinv
    unfold sift_up_loop at hrun
    by_cases hr : is_root i = true
    · simp only [hr, if_true, Except.ok.injEq] at hrun
      subst hrun
      have hi0 : i = 0 := by simpa [is_root] using hr
      intro j a b hj ha hb
      exact hinv.1 j a b hj (by omega) ha hb
    · have hi0 : 0 < i := by
        simp [is_root] at hr; omega
      have hp := get_parent_index_lt hi0
      simp only [hr, Bool.false_eq_true, if_false] at hrun
      cases hgi : vs[i]? with
      | none => simp [compare_nodes, hgi] at hrun
      | some a =>
        cases hgp : vs[get_parent_index i]? with
        | none => simp [compare_nodes, hgi, hgp] at hrun
        | some b =>
          rw [compare_nodes_of_get hgi hgp] at hrun
          cases hcab : comp a b with
          | false =>
            simp only [hcab, Except.ok.injEq] at hrun
            subst hrun
            intro j x y hj hx hy
            by_cases hji : j = i
            · subst hji
              rw [hgi] at hx; rw [hgp] at hy
              cases hx; cases hy
              exact hcab
            · exact hinv.1 j x y hj hji hx hy
          | true =>
            simp only [hcab, swap_nodes_of_get hgi hgp] at hrun
            refine ih _ _ _ hrun ⟨?_, ?_⟩
            · intro j x y hj hjp hx hy
              rw [swapped_get hgi hgp] at hx hy
              have hpj := get_parent_index_lt hj
              by_cases hji : j = i
              · subst hji
                simp only [hjp, if_false, if_true, Option.some.injEq] at hx hy
                subst hx; subst hy
                exact hc.asymm hcab
              · simp only [hjp, hji, if_false] at hx
                by_cases hq : get_parent_index j = get_parent_index i
                · simp only [hq, if_true, Option.some.injEq] at hy
                  subst hy
                  have h1 := hinv.1 j x b hj hji hx (hq ▸ hgp)
                  cases hxa : comp x a with
                  | false => rfl
                  | true =>
                    have := hc.trans x a b hxa hcab
                    rw [h1] at this
                    exact absurd this (by decide)
                · by_cases hq2 : get_parent_index j = i
                  · have hne : i ≠ get_parent_index i := by omega
                    simp only [hq2, hne, if_false, if_true, Option.some.injEq] at hy
                    subst hy
                    exact hinv.2 j x b hj hi0 hq2 hx hgp
                  · simp only [hq, hq2, if_false] at hy
                    exact hinv.1 j x y hj hji hx hy
            · intro j x y hj hp0 hjp hx hy
              rw [swapped_get hgi hgp] at hx hy
              have hpp := get_parent_index_lt hp0
              have hne1 : get_parent_index (get_parent_index i) ≠ get_parent_index i := by omega
              have hne2 : get_parent_index (get_parent_index i) ≠ i := by omega
              simp only [hne1, hne2, if_false] at hy
              have hbg := hinv.1 (get_parent_index i) b y hp0 (by omega) hgp hy
              have hjne : j ≠ get_parent_index i := by
                have := get_parent_index_lt hj
                omega
              by_cases hji : j = i
              · subst hji
                simp only [hjne, if_false, if_true, Option.some.injEq] at hx
                subst hx
                exact hbg
              · simp only [hjne, hji, if_false] at hx
                have hxb := hinv.1 j x b hj hji hx (hjp ▸ hgp)
                exact hc.not_before_trans hbg hxb

end binary_heap
namespace binary_heap

variable {α : Type}

theorem sift_down_loop_succ (comp : α → α → Bool) (n fuel : Nat) (vs : List α) (i : Nat) :
    sift_down_loop comp n (fuel + 1) vs i =
      if is_leaf i n then .ok vs
      else if has_left_child i n && has_right_child i n then
        match compare_nodes comp vs (get_left_child_index i) (get_right_child_index i) with
        | .error e => .error e
        | .ok true => sift_down_try comp n fuel vs (get_left_child_index i) i
        | .ok false => sift_down_try comp n fuel vs (get_right_child_index i) i
      else if has_left_child i n then sift_down_try comp n fuel vs (get_left_child_index i) i
      else if has_right_child i n then sift_down_try comp n fuel vs (get_right_child_index i) i
      else .ok vs := by
  rfl

theorem sift_down_try_ok (comp : α → α → Bool) (n fuel : Nat)
    (ih : ∀ (vs : List α) (i : Nat), vs.length = n → n < fuel + i → i ≤ n →
      ∃ vs', sift_down_loop comp n fuel vs i = .ok vs' ∧ vs'.Perm vs)
    (vs : List α) (c i : Nat) (hlen : vs.length = n) (hf : n < fuel + c) (hc : c < n)
    (hi : i < n) :
    ∃ vs', sift_down_try comp n fuel vs c i = .ok vs' ∧ vs'.Perm vs := by
  rcases exists_get_of_lt (hlen ▸ hc) with ⟨a, hgc⟩
  rcases exists_get_of_lt (hlen ▸ hi) with ⟨b, hgi⟩
  unfold sift_down_try
  simp only [compare_nodes_of_get hgc hgi, swap_nodes_of_get hgc hgi]
  cases hab : comp a b with
  | false => exact ⟨vs, rfl, List.Perm.refl _⟩
  | true =>
    rcases ih ((vs.set c b).set i a) c ((swapped_length vs c i a b).trans hlen) hf
      (Nat.le_of_lt hc) with ⟨vs', h1, h2⟩
    exact ⟨vs', h1, h2.trans (swapped_perm hgc hgi)⟩

theorem sift_down_loop_ok (comp : α → α → Bool) (n : Nat) :
    ∀ (fuel : Nat) (vs : List α) (i : Nat), vs.length = n → n < fuel + i → i ≤ n →
      ∃ vs', sift_down_loop comp n fuel vs i = .ok vs' ∧ vs'.Perm vs := by
  intro fuel
  induction fuel with
  | zero => intro vs i _ h1 h2; omega
  | succ fuel ih =>
    intro vs i hlen hf hi
    rw [sift_down_loop_succ]
    by_cases hleaf : is_leaf i n = true
    · rw [if_pos hleaf]; exact ⟨vs, rfl, List.Perm.refl _⟩
    · rw [if_neg hleaf]
      have hl : get_left_child_index i < n := by
        simp [is_leaf, has_left_child, has_right_child, get_left_child_index,
          get_right_child_index] at hleaf ⊢
        omega
      have hin : i < n := by
        unfold get_left_child_index at hl; omega
      have hhl : has_left_child i n = true := by simp [has_left_child, hl]
      have tl := sift_down_try_ok comp n fuel ih vs (get_left_child_index i) i hlen
        (by unfold get_left_child_index; omega) hl hin
      by_cases hhr : has_right_child i n = true
      · have hr : get_right_child_index i < n := by simpa [has_right_child] using hhr
        have tr := sift_down_try_ok comp n fuel ih vs (get_right_child_index i) i hlen
          (by unfold get_right_child_index; omega) hr hin
        rcases exists_get_of_lt (hlen ▸ hl) with ⟨x, hgl⟩
        rcases exists_get_of_lt (hlen ▸ hr) with ⟨y, hgr⟩
        simp only [hhl, hhr, Bool.and_self, if_true, compare_nodes_of_get hgl hgr]
        cases comp x y with
        | true => exact tl
        | false => exact tr
      · simp only [hhl, hhr, Bool.and_false, Bool.false_eq_true, if_false, if_true]
        exact tl

end binary_heap
namespace binary_heap

variable {α : Type}

theorem child_of_parent_eq {j i : Nat} (hj : 0 < j) (h : get_parent_index j = i) :
    j = get_left_child_index i ∨ j = get_right_child_index i := by
  unfold get_parent_index at h
  unfold get_left_child_index get_right_child_index
  omega

theorem sift_down_try_ordered {comp : α → α → Bool} (hc : strict_weak_ordering comp)
    (n fuel : Nat)
    (ih : ∀ (vs : List α) (i : Nat) (vs' : List α),
      sift_down_loop comp n fuel vs i = .ok vs' → vs.length = n →
      ordered_except_below comp vs i → heap_ordered comp vs')
    (vs : List α) (c i : Nat) (vs' : List α) (hlen : vs.length = n)
    (hci : get_parent_index c = i) (hc0 : 0 < c)
    (hrun : sift_down_try comp n fuel vs c i = .ok vs')
    (hinv : ordered_except_below comp vs i)
    (hother : ∀ j x a, 0 < j → get_parent_index j = i → j ≠ c → vs[j]? = some x →
      vs[c]? = some a → comp x a = false) :
    heap_ordered comp vs' := by
  have hic : i < c := hci ▸ get_parent_index_lt hc0
  unfold sift_down_try at hrun
  cases hgc : vs[c]? with
  | none => simp [compare_nodes, hgc] at hrun
  | some a =>
    cases hgi : vs[i]? with
    | none => simp [compare_nodes, hgc, hgi] at hrun
    | some b =>
      rw [compare_nodes_of_get hgc hgi] at hrun
      cases hab : comp a b with
      | false =>
        simp only [hab, Except.ok.injEq] at hrun
        subst hrun
        intro j x y hj hx hy
        by_cases hq : get_parent_index j = i
        · rw [hq, hgi] at hy
          cases hy
          by_cases hjc : j = c
          · subst hjc
            rw [hgc] at hx
            cases hx
            exact hab
          · exact hc.not_before_trans hab (hother j x a hj hq hjc hx hgc)
        · exact hinv.1 j x y hj hq hx hy
      | true =>
        simp only [hab, swap_nodes_of_get hgc hgi] at hrun
        refine ih _ _ _ hrun ((swapped_length vs c i a b).trans hlen) ⟨?_, ?_⟩
        · intro j x y hj hq hx hy
          rw [swapped_get hgc hgi] at hx hy
          have hpj := get_parent_index_lt hj
          by_cases hjc : j = c
          · subst hjc
            have hne : j ≠ i := by omega
            simp only [hne, hci, if_false, if_true, Option.some.injEq] at hx hy
            subst hx; subst hy
            exact hc.asymm hab
          · by_cases hji : j = i
            · subst hji
              have hne1 : get_parent_index j ≠ j := by omega
              simp only [hq, hne1, if_false, if_true, Option.some.injEq] at hx hy
              subst hx
              exact hinv.2 c a y hc0 hj hci hgc hy
            · simp only [hji, hjc, if_false] at hx
              by_cases hq2 : get_parent_index j = i
              · simp only [hq2, if_true, Option.some.injEq] at hy
                subst hy
                exact hother j x a hj hq2 hjc hx hgc
              · simp only [hq, hq2, if_false] at hy
                exact hinv.1 j x y hj hq2 hx hy
        · intro j x y hj _ hq hx hy
          rw [swapped_get hgc hgi] at hx hy
          have hpj := get_parent_index_lt hj
          have hne1 : j ≠ i := by omega
          have hne2 : j ≠ c := by omega
          simp only [hne1, hne2, if_false] at hx
          simp only [hci, if_true, Option.some.injEq] at hy
          subst hy
          exact hinv.1 j x a hj (by omega) hx (hq ▸ hgc)

theorem sift_down_loop_ordered {comp : α → α → Bool} (hc : strict_weak_ordering comp)
    (n : Nat) :
    ∀ (fuel : Nat) (vs : List α) (i : Nat) (vs' : List α),
      sift_down_loop comp n fuel vs i = .ok vs' → vs.length = n →
      ordered_except_below comp vs i → heap_ordered comp vs' := by
  intro fuel
  induction fuel with
  | zero => intro vs i vs' h; simp [sift_down_loop] at h
  | succ fuel ih =>
    intro vs i vs' hrun hlen hinv
    rw [sift_down_loop_succ] at hrun
    have hl0 : 0 < get_left_child_index i := by unfold get_left_child_index; omega
    have hr0 : 0 < get_right_child_index i := by unfold get_right_child_index; omega
    have hpl : get_parent_index (get_left_child_index i) = i := by
      unfold get_parent_index get_left_child_index; omega
    have hpr : get_parent_index (get_right_child_index i) = i := by
      unfold get_parent_index get_right_child_index; omega
    have hlr : get_left_child_index i ≠ get_right_child_index i := by
      unfold get_left_child_index get_right_child_index; omega
    by_cases hleaf : is_leaf i n = true
    · simp only [hleaf, if_true, Except.ok.injEq] at hrun
      subst hrun
      intro j x y hj hx hy
      by_cases hq : get_parent_index j = i
      · have hjl := get_lt_of_some hx
        have := child_of_parent_eq hj hq
        simp [is_leaf, has_left_child, has_right_child] at hleaf
        omega
      · exact hinv.1 j x y hj hq hx hy
    · rw [if_neg hleaf] at hrun
      have hl : get_left_child_index i < n := by
        simp [is_leaf, has_left_child, has_right_child, get_left_child_index,
          get_right_child_index] at hleaf ⊢
        omega
      have hhl : has_left_child i n = true := by simp [has_left_child, hl]
      by_cases hhr : has_right_child i n = true
      · have hr : get_right_child_index i < n := by simpa [has_right_child] using hhr
        rcases exists_get_of_lt (hlen ▸ hl) with ⟨x, hgl⟩
        rcases exists_get_of_lt (hlen ▸ hr) with ⟨y, hgr⟩
        simp only [hhl, hhr, Bool.and_self, if_true, compare_nodes_of_get hgl hgr] at hrun
        cases hxy : comp x y with
        | true =>
          simp only [hxy] at hrun
          refine sift_down_try_ordered hc n fuel ih vs _ i vs' hlen hpl hl0 hrun hinv ?_
          intro j u a hj hq hjc hu ha
          rcases child_of_parent_eq hj hq with h | h
          · exact absurd h hjc
          · subst h
            rw [hgr] at hu; rw [hgl] at ha
            cases hu; cases ha
            exact hc.asymm hxy
        | false =>
          simp only [hxy] at hrun
          refine sift_down_try_ordered hc n fuel ih vs _ i vs' hlen hpr hr0 hrun hinv ?_
          intro j u a hj hq hjc hu ha
          rcases child_of_parent_eq hj hq with h | h
          · subst h
            rw [hgl] at hu; rw [hgr] at ha
            cases hu; cases ha
            exact hxy
          · exact absurd h hjc
      · simp only [hhl, hhr, Bool.and_false, Bool.false_eq_true, if_false, if_true] at hrun
        refine sift_down_try_ordered hc n fuel ih vs _ i vs' hlen hpl hl0 hrun hinv ?_
        intro j u a hj hq hjc hu ha
        rcases child_of_parent_eq hj hq with h | h
        · exact absurd h hjc
        · subst h
          have := get_lt_of_some hu
          simp [has_right_child] at hhr
          omega

end binary_heap
namespace binary_heap

variable {α : Type}

theorem less_strict_weak_ordering : strict_weak_ordering less := by
  refine ⟨?_, ?_, ?_⟩
  · intro a; simp [less]
  · intro a b c; simp only [less, decide_eq_true_eq]; omega
  · intro a b c; simp only [less, decide_eq_false_iff_not, decide_eq_true_eq]; omega

theorem greater_strict_weak_ordering : strict_weak_ordering greater := by
  refine ⟨?_, ?_, ?_⟩
  · intro a; simp [greater]
  · intro a b c; simp only [greater, decide_eq_true_eq]; omega
  · intro a b c; simp only [greater, decide_eq_false_iff_not, decide_eq_true_eq]; omega

theorem empty_eq_false_iff (h : binary_heap α) : h.empty = false ↔ 0 < h.values_.length := by
  unfold empty
  cases h.values_ <;> simp

theorem push_ok (h : binary_heap α) (v : α) :
    ∃ h', h.push v = .ok h' ∧ h'.values_.Perm (v :: h.values_) ∧ h'.comp_ = h.comp_ := by
  unfold push sift_up
  have hlen : (h.values_ ++ [v]).length - 1 = h.values_.length := by simp
  rcases sift_up_loop_ok h.comp_ ((h.values_ ++ [v]).length - 1 + 1) (h.values_ ++ [v])
    ((h.values_ ++ [v]).length - 1) (Nat.lt_succ_self _) (by simp) with ⟨vs', h1, h2⟩
  simp only [h1]
  exact ⟨_, rfl, h2.trans (List.perm_append_singleton v h.values_), rfl⟩

theorem push_ordered (h h' : binary_heap α) (v : α) (hc : strict_weak_ordering h.comp_)
    (hord : heap_ordered h.comp_ h.values_) (hrun : h.push v = .ok h') :
    heap_ordered h.comp_ h'.values_ := by
  unfold push sift_up at hrun
  have hlen : (h.values_ ++ [v]).length - 1 = h.values_.length := by simp
  dsimp only at hrun
  rw [hlen] at hrun
  cases hs : sift_up_loop h.comp_ (h.values_.length + 1) (h.values_ ++ [v]) h.values_.length with
  | error e => simp [hs] at hrun
  | ok vs' =>
    simp only [hs, Except.ok.injEq] at hrun
    subst hrun
    refine sift_up_loop_ordered hc _ _ _ _ hs ⟨?_, ?_⟩
    · intro j a b hj hjn ha hb
      have hjl := get_lt_of_some ha
      have hpj := get_parent_index_lt hj
      simp only [List.length_append, List.length_singleton] at hjl
      rw [List.getElem?_append_left (by omega)] at ha hb
      exact hord j a b hj ha hb
    · intro j a b hj hn hq ha hb
      have hjl := get_lt_of_some ha
      simp only [List.length_append, List.length_singleton] at hjl
      unfold get_parent_index at hq
      omega

theorem last_perm {l : List α} {t : α} (h : l[l.length - 1]? = some t) :
    (t :: l.dropLast).Perm l := by
  have hl : l.dropLast ++ [t] = l :=
    List.dropLast_append_getLast? t (by rw [List.getLast?_eq_getElem?]; exact h)
  exact ((List.perm_append_singleton t l.dropLast).symm.trans (List.Perm.of_eq hl))

theorem pop_ok (h : binary_heap α) (hne : h.empty = false) :
    ∃ t h', h.top = .ok t ∧ h.pop = .ok h' ∧ h.values_.Perm (t :: h'.values_) ∧
      h'.comp_ = h.comp_ := by
  have hpos := (empty_eq_false_iff h).mp hne
  rcases exists_get_of_lt hpos with ⟨t, hg0⟩
  rcases exists_get_of_lt (show h.values_.length - 1 < h.values_.length by omega) with ⟨z, hgl⟩
  unfold pop top sift_down
  simp only [hne, hg0, swap_nodes_of_get hg0 hgl, Bool.false_eq_true, if_false]
  have hlast : ((h.values_.set 0 z).set (h.values_.length - 1) t)[
      ((h.values_.set 0 z).set (h.values_.length - 1) t).length - 1]? = some t := by
    rw [swapped_length, swapped_get hg0 hgl]
    simp
  have hperm := (last_perm hlast).trans (swapped_perm hg0 hgl)
  rcases sift_down_loop_ok h.comp_
    ((h.values_.set 0 z).set (h.values_.length - 1) t).dropLast.length
    (((h.values_.set 0 z).set (h.values_.length - 1) t).dropLast.length + 1)
    ((h.values_.set 0 z).set (h.values_.length - 1) t).dropLast 0 rfl (by omega) (by omega)
    with ⟨vs', h1, h2⟩
  simp only [h1]
  exact ⟨t, _, rfl, rfl, (((List.Perm.cons t h2).trans hperm)).symm, rfl⟩

theorem pop_ordered (h h' : binary_heap α) (hc : strict_weak_ordering h.comp_)
    (hord : heap_ordered h.comp_ h.values_) (hrun : h.pop = .ok h') :
    heap_ordered h.comp_ h'.values_ := by
  unfold pop at hrun
  cases hne : h.empty with
  | true => simp [hne] at hrun
  | false =>
    have hpos := (empty_eq_false_iff h).mp hne
    rcases exists_get_of_lt hpos with ⟨t, hg0⟩
    rcases exists_get_of_lt (show h.values_.length - 1 < h.values_.length by omega)
      with ⟨z, hgl⟩
    simp only [hne, swap_nodes_of_get hg0 hgl, Bool.false_eq_true, if_false] at hrun
    cases hs : sift_down h.comp_ ((h.values_.set 0 z).set (h.values_.length - 1) t).dropLast 0 with
    | error e => simp [hs] at hrun
    | ok vs' =>
      simp only [hs, Except.ok.injEq] at hrun
      subst hrun
      unfold sift_down at hs
      refine sift_down_loop_ordered hc _ _ _ _ _ hs rfl ⟨?_, ?_⟩
      · intro j a b hj hq ha hb
        have hpj := get_parent_index_lt hj
        have hjl := get_lt_of_some ha
        rw [List.length_dropLast, swapped_length] at hjl
        rw [List.getElem?_dropLast, swapped_length, swapped_get hg0 hgl] at ha hb
        have h1 : j ≠ h.values_.length - 1 := by omega
        have h2 : j ≠ 0 := by omega
        have h3 : get_parent_index j ≠ h.values_.length - 1 := by omega
        have h4 : get_parent_index j < h.values_.length - 1 := by omega
        simp only [hjl, h1, h2, if_true, if_false] at ha
        simp only [h4, h3, hq, if_true, if_false] at hb
        exact hord j a b hj ha hb
      · intro j a b _ h0
        omega

end binary_heap
namespace binary_heap

variable {α : Type}

theorem heap_ordered_nil (comp : α → α → Bool) : heap_ordered comp [] := by
  intro i a b _ ha
  simp at ha

theorem heap_ordered_get {comp : α → α → Bool} {vs : List α} (hord : heap_ordered comp vs)
    (i : Nat) (hi : i < vs.length) (h0 : 0 < i) :
    comp (vs.get ⟨i, hi⟩) (vs.get ⟨(i - 1) / 2, by omega⟩) = false := by
  have hp : (i - 1) / 2 < vs.length := by omega
  exact hord i _ _ h0 (List.getElem?_eq_getElem hi) (List.getElem?_eq_getElem hp)

theorem root_min {comp : α → α → Bool} (hc : strict_weak_ordering comp) {vs : List α}
    (hord : heap_ordered comp vs) {t : α} (ht : vs[0]? = some t) :
    ∀ (i : Nat) (x : α), vs[i]? = some x → comp x t = false := by
  intro i
  induction i using Nat.strong_induction_on with
  | _ i ih =>
    intro x hx
    by_cases h0 : i = 0
    · subst h0
      rw [ht] at hx
      cases hx
      exact hc.irrefl _
    · have hi0 : 0 < i := by omega
      have hp := get_parent_index_lt hi0
      rcases exists_get_of_lt (Nat.lt_trans hp (get_lt_of_some hx)) with ⟨y, hy⟩
      exact hc.not_before_trans (ih _ hp y hy) (hord i x y hi0 hx hy)

theorem run_ordered {comp : α → α → Bool} (hc : strict_weak_ordering comp) :
    ∀ (ops : List (operation α)) (h h' : binary_heap α), h.comp_ = comp →
      heap_ordered comp h.values_ → h.run ops = .ok h' →
      h'.comp_ = comp ∧ heap_ordered comp h'.values_ := by
  intro ops
  induction ops with
  | nil =>
    intro h h' hcomp hord hrun
    simp only [run, Except.ok.injEq] at hrun
    subst hrun
    exact ⟨hcomp, hord⟩
  | cons op rest ih =>
    intro h h' hcomp hord hrun
    unfold run at hrun
    cases hstep : h.apply_operation op with
    | error e => simp [hstep] at hrun
    | ok h1 =>
      simp only [hstep] at hrun
      subst hcomp
      cases op with
      | push v =>
        rcases push_ok h v with ⟨h2, e1, _, e3⟩
        have e : h2 = h1 := by
          simp only [apply_operation, e1, Except.ok.injEq] at hstep
          exact hstep
        subst e
        have := push_ordered h h2 v hc hord e1
        exact ih h2 h' e3 this hrun
      | pop =>
        have hpop : h.pop = .ok h1 := hstep
        have hne : h.empty = false := by
          cases hem : h.empty with
          | false => rfl
          | true => simp [pop, hem] at hpop
        rcases pop_ok h hne with ⟨_, h2, _, e1, _, e3⟩
        have e : h2 = h1 := by
          rw [e1] at hpop
          exact Except.ok.inj hpop
        subst e
        exact ih h2 h' e3 (pop_ordered h h2 hc hord e1) hrun

theorem push_size (h : binary_heap α) (v : α) :
    ∃ h', h.push v = .ok h' ∧ h'.size = h.size + 1 := by
  rcases push_ok h v with ⟨h', e1, e2, _⟩
  exact ⟨h', e1, by simpa [size] using e2.length_eq⟩

theorem pop_size (h : binary_heap α) (hne : h.empty = false) :
    ∃ h', h.pop = .ok h' ∧ h'.size + 1 = h.size := by
  rcases pop_ok h hne with ⟨_, h', _, e1, e2, _⟩
  exact ⟨h', e1, by simpa [size] using e2.length_eq.symm⟩

theorem pop_empty (h : binary_heap α) (he : h.empty = true) :
    h.pop = .error .assertion_failed := by
  simp [pop, he]

theorem run_size :
    ∀ (ops : List (operation α)) (h h' : binary_heap α), h.run ops = .ok h' →
      h'.size + count_pop ops = h.size + count_push ops := by
  intro ops
  induction ops with
  | nil =>
    intro h h' hrun
    simp only [run, Except.ok.injEq] at hrun
    subst hrun
    simp [count_pop, count_push]
  | cons op rest ih =>
    intro h h' hrun
    unfold run at hrun
    cases hstep : h.apply_operation op with
    | error e => simp [hstep] at hrun
    | ok h1 =>
      simp only [hstep] at hrun
      have := ih h1 h' hrun
      cases op with
      | push v =>
        rcases push_size h v with ⟨h2, e1, e2⟩
        have e : h2 = h1 := by
          simp only [apply_operation, e1, Except.ok.injEq] at hstep
          exact hstep
        subst e
        simp only [count_pop, count_push]
        omega
      | pop =>
        have hpop : h.pop = .ok h1 := hstep
        have hne : h.empty = false := by
          cases hem : h.empty with
          | false => rfl
          | true => simp [pop, hem] at hpop
        rcases pop_size h hne with ⟨h2, e1, e2⟩
        have e : h2 = h1 := by
          rw [e1] at hpop
          exact Except.ok.inj hpop
        subst e
        simp only [count_pop, count_push]
        omega

/-- A run does not fail when every prefix of the sequence has no more `pop` calls than the
start size plus its `push` calls. -/
theorem run_ok_of_prefix_counts :
    ∀ (ops : List (operation α)) (h : binary_heap α),
      (∀ p, p <+: ops → count_pop p ≤ h.size + count_push p) → ∃ h', h.run ops = .ok h' := by
  intro ops
  induction ops with
  | nil => intro h _; exact ⟨h, rfl⟩
  | cons op rest ih =>
    intro h hp
    unfold run
    cases op with
    | push v =>
      rcases push_size h v with ⟨h2, e1, e2⟩
      simp only [apply_operation, e1]
      apply ih
      intro p hpre
      have := hp (operation.push v :: p) (by simpa using hpre)
      simp only [count_pop, count_push] at this
      omega
    | pop =>
      have h1 := hp [operation.pop] (by simp)
      simp only [count_pop, count_push] at h1
      have hne : h.empty = false := by
        rw [empty_eq_false_iff]
        unfold size at h1
        omega
      rcases pop_size h hne with ⟨h2, e1, e2⟩
      simp only [apply_operation, e1]
      apply ih
      intro p hpre
      have := hp (operation.pop :: p) (by simpa using hpre)
      simp only [count_pop, count_push] at this
      omega

end binary_heap
namespace binary_heap

variable {α : Type}

theorem insert_ok :
    ∀ (xs : List α) (h : binary_heap α),
      ∃ h', h.insert xs = .ok h' ∧ h'.values_.Perm (h.values_ ++ xs) ∧ h'.comp_ = h.comp_ ∧
        (strict_weak_ordering h.comp_ → heap_ordered h.comp_ h.values_ →
          heap_ordered h.comp_ h'.values_) := by
  intro xs
  induction xs with
  | nil => intro h; exact ⟨h, rfl, by simp, rfl, fun _ hord => hord⟩
  | cons x rest ih =>
    intro h
    rcases push_ok h x with ⟨h1, e1, e2, e3⟩
    rcases ih h1 with ⟨h2, f1, f2, f3, f4⟩
    refine ⟨h2, ?_, ?_, f3.trans e3, ?_⟩
    · simp only [insert, e1]
      exact f1
    · refine f2.trans ?_
      refine (List.Perm.append_right rest e2).trans ?_
      simp only [List.cons_append]
      exact (List.perm_middle).symm
    · intro hc hord
      have h1ord := push_ordered h h1 x hc hord e1
      rw [e3] at f4
      exact f4 hc h1ord

theorem drain_loop_ok {comp : α → α → Bool} (hc : strict_weak_ordering comp) :
    ∀ (fuel : Nat) (h : binary_heap α), h.comp_ = comp → h.size ≤ fuel →
      heap_ordered comp h.values_ →
      ∃ out, drain_loop fuel h = .ok out ∧ out.Perm h.values_ ∧
        out.Pairwise (fun a b => comp b a = false) := by
  intro fuel
  induction fuel with
  | zero =>
    intro h _ hsz _
    have hnil : h.values_ = [] := by
      unfold size at hsz
      exact List.length_eq_zero.mp (by omega)
    refine ⟨[], ?_, ?_, List.Pairwise.nil⟩
    · simp [drain_loop, empty, hnil]
    · rw [hnil]
  | succ fuel ih =>
    intro h hcomp hsz hord
    unfold drain_loop
    cases hem : h.empty with
    | true =>
      have hnil : h.values_ = [] := by simpa [empty] using hem
      refine ⟨[], by simp, ?_, List.Pairwise.nil⟩
      rw [hnil]
    | false =>
      rcases pop_ok h hem with ⟨t, h1, e1, e2, e3, e4⟩
      have hsz1 : h1.size ≤ fuel := by
        have := e3.length_eq
        simp only [List.length_cons] at this
        unfold size at hsz ⊢
        omega
      subst hcomp
      have h1ord := pop_ordered h h1 hc hord e2
      rcases ih h1 e4 hsz1 h1ord with ⟨rest, f1, f2, f3⟩
      refine ⟨t :: rest, ?_, ?_, ?_⟩
      · simp [e1, e2, f1]
      · exact (List.Perm.cons t f2).trans e3.symm
      · refine List.Pairwise.cons ?_ f3
        intro b hb
        have hbm : b ∈ h.values_ := e3.symm.subset (List.mem_cons_of_mem t (f2.subset hb))
        rcases List.getElem?_of_mem hbm with ⟨i, hi⟩
        have ht : h.values_[0]? = some t := by
          unfold top at e1
          cases hg : h.values_[0]? with
          | none => simp [hg] at e1
          | some v =>
            simp only [hg, Except.ok.injEq] at e1
            rw [e1]
        exact root_min hc hord ht i b hi

end binary_heap
namespace binary_heap

variable {α : Type}

/-- C1. Heap-order invariant of `binary_heap`: for a strict weak ordering `comp`, every
state reached from the empty heap by a finite sequence of `push` and `pop` calls (none of
them failing, so no `pop` on an empty heap) has `comp values[i] values[(i-1)/2] = false` at
every index `0 < i < size`; and `push`, and `pop` on a non-empty heap, each return a heap
and preserve the predicate. -/
theorem heap_order_invariant (comp : α → α → Bool) (hc : strict_weak_ordering comp) :
    (∀ (ops : List (operation α)) (h : binary_heap α), (mk_empty comp).run ops = .ok h →
      ∀ (i : Nat) (hi : i < h.values_.length), 0 < i →
        comp (h.values_.get ⟨i, hi⟩) (h.values_.get ⟨(i - 1) / 2, by omega⟩) = false) ∧
    (∀ (h : binary_heap α) (v : α), h.comp_ = comp → heap_ordered comp h.values_ →
      ∃ h', h.push v = .ok h' ∧ heap_ordered comp h'.values_) ∧
    (∀ (h : binary_heap α), h.comp_ = comp → h.empty = false → heap_ordered comp h.values_ →
      ∃ h', h.pop = .ok h' ∧ heap_ordered comp h'.values_) := by
  refine ⟨?_, ?_, ?_⟩
  · intro ops h hrun i hi h0
    exact heap_ordered_get
      (run_ordered hc ops (mk_empty comp) h rfl (heap_ordered_nil comp) hrun).2 i hi h0
  · intro h v hcomp hord
    subst hcomp
    rcases push_ok h v with ⟨h', e1, _, _⟩
    exact ⟨h', e1, push_ordered h h' v hc hord e1⟩
  · intro h hcomp hne hord
    subst hcomp
    rcases pop_ok h hne with ⟨_, h', _, e1, _, _⟩
    exact ⟨h', e1, pop_ordered h h' hc hord e1⟩

/-- Instance of C1 under `std::less<int>`: push 5, push 3, push 8, pop leaves `[5, 8]`,
whose only non-root node 8 does not compare before its parent 5. -/
theorem heap_order_invariant_witness :
    (mk_empty less).run [.push 5, .push 3, .push 8, .pop] = .ok ⟨[5, 8], less⟩ ∧
    less 8 5 = false :=
  ⟨rfl, (heap_order_invariant less less_strict_weak_ordering).1
    [.push 5, .push 3, .push 8, .pop] ⟨[5, 8], less⟩ rfl 1 (by decide) (by decide)⟩

/-- C2. `top` returns a minimum: for a strict weak ordering `comp` and a non-empty heap
reached from the empty heap by `push`/`pop`, `top` returns `values[0]` and no stored
element compares before it. -/
theorem top_is_minimum (comp : α → α → Bool) (hc : strict_weak_ordering comp)
    (ops : List (operation α)) (h : binary_heap α)
    (hrun : (mk_empty comp).run ops = .ok h) (hne : h.empty = false) :
    ∃ t, h.top = .ok t ∧ h.values_[0]? = some t ∧ ∀ x ∈ h.values_, comp x t = false := by
  have hord := (run_ordered hc ops (mk_empty comp) h rfl (heap_ordered_nil comp) hrun).2
  rcases exists_get_of_lt ((empty_eq_false_iff h).mp hne) with ⟨t, ht⟩
  refine ⟨t, by simp [top, ht], ht, ?_⟩
  intro x hx
  rcases List.getElem?_of_mem hx with ⟨i, hi⟩
  exact root_min hc hord ht i x hi

/-- Instance of C2 under `std::less<int>`: push 5, push 3, push 8 gives `top() == 3`. -/
theorem top_is_minimum_witness :
    (mk_empty less).run [.push 5, .push 3, .push 8] = .ok ⟨[3, 5, 8], less⟩ ∧
    top ⟨[3, 5, 8], less⟩ = .ok 3 ∧
    ∃ t, top ⟨[3, 5, 8], less⟩ = .ok t ∧ ([3, 5, 8] : List Int)[0]? = some t ∧
      ∀ x ∈ ([3, 5, 8] : List Int), less x t = false :=
  ⟨rfl, rfl, top_is_minimum less less_strict_weak_ordering
    [.push 5, .push 3, .push 8] ⟨[3, 5, 8], less⟩ rfl rfl⟩

/-- C3. `pop` on a non-empty heap returns a heap and removes exactly one occurrence of
the element `top` returned before the call: the stored values before the call are, as a
multiset, that element together with the stored values after the call. -/
theorem pop_removes_top (h : binary_heap α) (hne : h.empty = false) :
    ∃ t h', h.top = .ok t ∧ h.pop = .ok h' ∧ h.values_.Perm (t :: h'.values_) := by
  rcases pop_ok h hne with ⟨t, h', e1, e2, e3, _⟩
  exact ⟨t, h', e1, e2, e3⟩

/-- Instance of C3 under `std::less<int>`: push 5, push 3, pop, then `top() == 5`. -/
theorem pop_removes_top_witness :
    (mk_empty less).run [.push 5, .push 3] = .ok ⟨[3, 5], less⟩ ∧
    pop ⟨[3, 5], less⟩ = .ok ⟨[5], less⟩ ∧ top ⟨[5], less⟩ = .ok 5 ∧
    ∃ t h', top ⟨[3, 5], less⟩ = .ok t ∧ pop ⟨[3, 5], less⟩ = .ok h' ∧
      ([3, 5] : List Int).Perm (t :: h'.values_) :=
  ⟨rfl, rfl, rfl, pop_removes_top ⟨[3, 5], less⟩ rfl⟩

/-- C4. `push v` returns a heap whose stored values are, as a multiset, the values stored
before together with one more copy of `v`, for every heap state, comparator and value. -/
theorem push_adds_value (h : binary_heap α) (v : α) :
    ∃ h', h.push v = .ok h' ∧ h'.values_.Perm (v :: h.values_) := by
  rcases push_ok h v with ⟨h', e1, e2, _⟩
  exact ⟨h', e1, e2⟩

/-- C8. Pop-count law: a sequence of calls in which every prefix has at least as many
`push` as `pop` calls runs from the empty heap without failing and ends with
`size = pushes - pops`; every run that does not fail satisfies `size + pops = pushes`;
`push` raises `size` by one and `pop` on a non-empty heap lowers it by one. -/
theorem pop_count_law (comp : α → α → Bool) (ops : List (operation α))
    (hpre : ∀ n, n ≤ ops.length → count_pop (ops.take n) ≤ count_push (ops.take n)) :
    (∃ h, (mk_empty comp).run ops = .ok h ∧ h.size = count_push ops - count_pop ops) ∧
    (∀ (ops' : List (operation α)) (h' : binary_heap α), (mk_empty comp).run ops' = .ok h' →
      h'.size + count_pop ops' = count_push ops') ∧
    (∀ (h : binary_heap α) (v : α), ∃ h', h.push v = .ok h' ∧ h'.size = h.size + 1) ∧
    (∀ (h : binary_heap α), h.empty = false → ∃ h', h.pop = .ok h' ∧ h'.size + 1 = h.size) := by
  have hsz : ∀ (ops' : List (operation α)) (h' : binary_heap α),
      (mk_empty comp).run ops' = .ok h' → h'.size + count_pop ops' = count_push ops' := by
    intro ops' h' hrun
    have := run_size ops' (mk_empty comp) h' hrun
    simpa [mk_empty, size] using this
  refine ⟨?_, hsz, push_size, pop_size⟩
  have hex : ∃ h, (mk_empty comp).run ops = .ok h := by
    apply run_ok_of_prefix_counts
    intro p hp
    have hpt : p = ops.take p.length := List.prefix_iff_eq_take.mp hp
    have := hpre p.length hp.length_le
    rw [← hpt] at this
    omega
  rcases hex with ⟨h, hrun⟩
  have := hsz ops h hrun
  exact ⟨h, hrun, by omega⟩

/-- Instance of C8 under `std::less<int>`: push, push, pop leaves one element. -/
theorem pop_count_law_witness :
    ∃ h, (mk_empty less).run [.push 1, .push 2, .pop] = .ok h ∧
      h.size = count_push [operation.push (1 : Int), .push 2, .pop] -
        count_pop [operation.push (1 : Int), .push 2, .pop] :=
  (pop_count_law less [.push 1, .push 2, .pop] (by decide)).1

/-- C9. Heap sort: for a strict weak ordering `comp` and a list `xs`, pushing the elements
of `xs` in order onto the empty heap and then recording `top` and calling `pop` until the
heap is empty yields a permutation of `xs` in which no element compares before an earlier
one (in particular not before its predecessor). -/
theorem heap_sort (comp : α → α → Bool) (hc : strict_weak_ordering comp) (xs : List α) :
    ∃ h out, (mk_empty comp).insert xs = .ok h ∧ h.drain = .ok out ∧ out.Perm xs ∧
      out.Chain' (fun a b => comp b a = false) ∧
      out.Pairwise (fun a b => comp b a = false) := by
  rcases insert_ok xs (mk_empty comp) with ⟨h, e1, e2, e3, e4⟩
  have hord : heap_ordered comp h.values_ := e4 hc (heap_ordered_nil comp)
  rcases drain_loop_ok hc h.size h e3 (Nat.le_refl _) hord with ⟨out, f1, f2, f3⟩
  refine ⟨h, out, e1, f1, ?_, List.Pairwise.chain' f3, f3⟩
  exact f2.trans (by simpa [mk_empty] using e2)

/-- Instance of C9: `5, 3, 8, 1` is extracted ascending under `std::less<int>` and
descending under `std::greater<int>`. -/
theorem heap_sort_witness :
    ((mk_empty less).insert [5, 3, 8, 1]).bind drain = .ok [1, 3, 5, 8] ∧
    ((mk_empty greater).insert [5, 3, 8, 1]).bind drain = .ok [8, 5, 3, 1] ∧
    ∃ h out, (mk_empty less).insert [5, 3, 8, 1] = .ok h ∧ h.drain = .ok out ∧
      out.Perm [5, 3, 8, 1] ∧ out.Chain' (fun a b => less b a = false) ∧
      out.Pairwise (fun a b => less b a = false) :=
  ⟨rfl, rfl, heap_sort less less_strict_weak_ordering [5, 3, 8, 1]⟩

end binary_heap

namespace rb_heap

/-- C7 on the code: `push 1` twice on an empty `rb_heap<int>` leaves `size() == 1`; the
second value, equivalent to the first, is not stored. -/
theorem push_duplicate_size :
    ((mk_empty less).push 1).size = 1 ∧ (((mk_empty less).push 1).push 1).size = 1 :=
  ⟨rfl, rfl⟩

end rb_heap

namespace testing

/-- C5 on the code: after `PUSH 1, PUSH 1` in lockstep the `binary_heap` holds two
elements and the `rb_heap` one. -/
theorem lockstep_sizes_differ :
    (run_commands start [.PUSH 1, .PUSH 1]).map
      (fun s => (s.array_heap.size, s.tree_heap.size)) = .ok (2, 1) :=
  rfl

/-- C6 on the code: after `PUSH 1, PUSH 1, PUSH 2, POP` in lockstep both heaps are
non-empty, the `binary_heap` has top 1, the `rb_heap` has top 2, and 1 compares before 2. -/
theorem lockstep_tops_differ :
    run_commands start [.PUSH 1, .PUSH 1, .PUSH 2, .POP] =
      .ok ⟨⟨[1, 2], less⟩, ⟨[2], less⟩⟩ ∧
    binary_heap.top ⟨[1, 2], less⟩ = .ok 1 ∧ rb_heap.top ⟨[2], less⟩ = .ok 2 ∧
    less 1 2 = true :=
  ⟨rfl, rfl, rfl, rfl⟩

/-- C10 on the code: pushing `1, 1` and draining yields `[1, 1]` from the `binary_heap`
and `[1]` from the `rb_heap`. -/
theorem extraction_sequences_differ :
    ((binary_heap.mk_empty less).insert [1, 1]).bind binary_heap.drain = .ok [1, 1] ∧
    ((rb_heap.mk_empty less).push_all [1, 1]).drain = .ok [1] :=
  ⟨rfl, rfl⟩

end testing

namespace cli

/-- C11 as stated fails on the code: on Insert 10, Insert 20, ExtractMax, Insert 5,
ExtractMax, ExtractMax, ExtractMax the loop does not write 20, 10, the empty report, 5. -/
theorem max_queue_scenario_as_stated_fails :
    run [.Insert 10, .Insert 20, .ExtractMax, .Insert 5, .ExtractMax, .ExtractMax,
      .ExtractMax] ≠ .ok [.value 20, .value 10, .heap_is_empty, .value 5] := by
  intro h
  have e : run [.Insert 10, .Insert 20, .ExtractMax, .Insert 5, .ExtractMax, .ExtractMax,
      .ExtractMax] = .ok [.value 20, .value 10, .value 5, .heap_is_empty] := rfl
  rw [e] at h
  simp at h

/-- C11 amended. Max-queue command scenario: on Insert 10, Insert 20, ExtractMax, Insert 5,
ExtractMax, ExtractMax, ExtractMax the loop writes, in order, 20, 10, 5 and then the empty
report. -/
theorem max_queue_scenario :
    run [.Insert 10, .Insert 20, .ExtractMax, .Insert 5, .ExtractMax, .ExtractMax,
      .ExtractMax] = .ok [.value 20, .value 10, .value 5, .heap_is_empty] :=
  rfl

end cli

namespace binary_heap

variable {α : Type}

theorem insert_eq_run :
    ∀ (xs : List α) (h : binary_heap α), h.insert xs = h.run (xs.map operation.push) := by
  intro xs
  induction xs with
  | nil => intro h; rfl
  | cons x rest ih =>
    intro h
    simp only [insert, List.map_cons, run, apply_operation]
    cases h.push x with
    | error e => rfl
    | ok h' => exact ih h'

theorem has_left_of_has_right {node_index nodes_count : Nat}
    (h : has_right_child node_index nodes_count = true) :
    has_left_child node_index nodes_count = true := by
  simp only [has_right_child, has_left_child, get_right_child_index, get_left_child_index,
    decide_eq_true_eq] at h ⊢
  omega

theorem sift_down_loop_without_right_only_eq (comp : α → α → Bool) (n : Nat) :
    ∀ (fuel : Nat) (vs : List α) (i : Nat),
      sift_down_loop_without_right_only comp n fuel vs i = sift_down_loop comp n fuel vs i := by
  intro fuel
  induction fuel with
  | zero => intro vs i; rfl
  | succ fuel ih =>
    intro vs i
    unfold sift_down_loop_without_right_only sift_down_loop
    simp only [ih]
    cases hr : has_right_child i n with
    | false => simp
    | true => simp [has_left_of_has_right hr]

/-- C14. Idempotent emptiness: for every state of `binary_heap` and of `rb_heap`, after
`clear` the queue has `empty() == true` and `size() == 0`, a second `clear` leaves that
state unchanged, and the cleared `binary_heap` satisfies the heap-order invariant. -/
theorem clear_idempotent (h : binary_heap α) (g : rb_heap α) :
    (h.clear.empty = true ∧ h.clear.size = 0 ∧ h.clear.clear = h.clear ∧
      heap_ordered h.clear.comp_ h.clear.values_) ∧
    (g.clear.empty = true ∧ g.clear.size = 0 ∧ g.clear.clear = g.clear) :=
  ⟨⟨rfl, rfl, rfl, heap_ordered_nil _⟩, rfl, rfl, rfl⟩

/-- C19. Construction from a sequence is repeated `push`: for a strict weak ordering `comp`
and a list `xs`, the range constructor and the initializer-list constructor return exactly
the state reached by pushing the elements of `xs` in order onto the empty heap; that state
has size `xs.length`, contents a permutation of `xs`, and satisfies the heap-order
invariant. -/
theorem construction_is_repeated_push (comp : α → α → Bool) (hc : strict_weak_ordering comp)
    (xs : List α) :
    mk_range xs comp = (mk_empty comp).run (xs.map operation.push) ∧
    mk_initializer_list xs comp = (mk_empty comp).run (xs.map operation.push) ∧
    ∃ h, mk_range xs comp = .ok h ∧ h.size = xs.length ∧ h.values_.Perm xs ∧
      h.comp_ = comp ∧ heap_ordered comp h.values_ := by
  refine ⟨insert_eq_run xs _, insert_eq_run xs _, ?_⟩
  rcases insert_ok xs (mk_empty comp) with ⟨h, e1, e2, e3, e4⟩
  have hperm : h.values_.Perm xs := by simpa [mk_empty] using e2
  exact ⟨h, e1, by simpa [size] using hperm.length_eq, hperm, e3,
    e4 hc (heap_ordered_nil comp)⟩

/-- Instance of C19 under `std::less<int>`: the heap built from `5, 3, 8, 3` is the one
reached by four pushes, `[3, 3, 8, 5]`. -/
theorem construction_is_repeated_push_witness :
    mk_range [5, 3, 8, 3] less = .ok ⟨[3, 3, 8, 5], less⟩ ∧
    (mk_range [5, 3, 8, 3] less =
        (mk_empty less).run ([5, 3, 8, 3].map operation.push) ∧
      mk_initializer_list [5, 3, 8, 3] less =
        (mk_empty less).run ([5, 3, 8, 3].map operation.push) ∧
      ∃ h, mk_range [5, 3, 8, 3] less = .ok h ∧ h.size = [5, 3, 8, 3].length ∧
        h.values_.Perm [5, 3, 8, 3] ∧ h.comp_ = less ∧ heap_ordered less h.values_) :=
  ⟨rfl, construction_is_repeated_push less less_strict_weak_ordering [5, 3, 8, 3]⟩

/-- C20. The branch of `sift_down` taken when a node has a right child and no left child
is dead: `has_right_child` implies `has_left_child`, `is_leaf` is the negation of
`has_left_child`, and `sift_down` with that branch removed returns the same result as
`sift_down` on every comparator, array and start index. -/
theorem right_only_branch_dead (node_index nodes_count : Nat) :
    (has_right_child node_index nodes_count = true →
      has_left_child node_index nodes_count = true) ∧
    ¬ (has_left_child node_index nodes_count = false ∧
      has_right_child node_index nodes_count = true) ∧
    is_leaf node_index nodes_count = !has_left_child node_index nodes_count ∧
    (∀ (comp : α → α → Bool) (fuel : Nat) (vs : List α),
      sift_down_loop_without_right_only comp nodes_count fuel vs node_index =
        sift_down_loop comp nodes_count fuel vs node_index) ∧
    (∀ (comp : α → α → Bool) (vs : List α),
      sift_down_without_right_only comp vs node_index = sift_down comp vs node_index) := by
  refine ⟨has_left_of_has_right, ?_, ?_, ?_, ?_⟩
  · intro h
    have := has_left_of_has_right h.2
    rw [h.1] at this
    exact absurd this (by decide)
  · unfold is_leaf
    cases hr : has_right_child node_index nodes_count with
    | false => simp
    | true => simp [has_left_of_has_right hr]
  · intro comp fuel vs
    exact sift_down_loop_without_right_only_eq comp nodes_count fuel vs node_index
  · intro comp vs
    exact sift_down_loop_without_right_only_eq comp vs.length _ vs node_index

end binary_heap

namespace binary_heap

variable {α : Type}

theorem selected_child_of_get (comp : α → α → Bool) {vs : List α} {i : Nat} {l r : α}
    (hl : vs[get_left_child_index i]? = some l) (hr : vs[get_right_child_index i]? = some r) :
    selected_child comp vs i =
      .ok (if comp l r then get_left_child_index i else get_right_child_index i) := by
  unfold selected_child
  rw [compare_nodes_of_get hl hr]
  cases comp l r <;> rfl

theorem sift_down_try_of_get {comp : α → α → Bool} (n fuel : Nat) {vs : List α} {c i : Nat}
    {y x : α} (hc : vs[c]? = some y) (hi : vs[i]? = some x) :
    sift_down_try comp n fuel vs c i =
      if comp y x then sift_down_loop comp n fuel ((vs.set c x).set i y) c else .ok vs := by
  unfold sift_down_try
  rw [compare_nodes_of_get hc hi, swap_nodes_of_get hc hi]
  cases comp y x <;> rfl

/-- C15 as stated fails on the code: at the node 0 of `[5, 1, 1]` the children tie, so
`Compare(right, left)` is false, and the child selected is the right one, index 2. -/
theorem child_selection_as_stated_fails :
    ¬ ∀ (vs : List Int) (i : Nat) (l r : Int),
      vs[get_left_child_index i]? = some l → vs[get_right_child_index i]? = some r →
      (selected_child less vs i = .ok (get_left_child_index i) ↔ less r l = false) := by
  intro h
  have hsel := (h [5, 1, 1] 0 1 1 rfl rfl).mpr rfl
  have e : selected_child less [5, 1, 1] 0 = .ok 2 := rfl
  rw [e] at hsel
  simp [get_left_child_index] at hsel

/-- C15 amended. Child selection in a `sift_down` step at a node with both children: the
left child is selected when, and only when, it compares before the right child; when the
right child compares before the left or the two tie, the right child is selected. The
iteration is the selection followed by the comparison of the selected child with the node:
the two are swapped and the loop continues from the child when the child compares before
the node, and the loop stops with the array unchanged otherwise. -/
theorem child_selection (comp : α → α → Bool) (nodes_count fuel : Nat) (vs : List α)
    (i : Nat) (l r x : α)
    (hl : vs[get_left_child_index i]? = some l) (hr : vs[get_right_child_index i]? = some r)
    (hx : vs[i]? = some x) (hn : get_right_child_index i < nodes_count) :
    (selected_child comp vs i = .ok (get_left_child_index i) ↔ comp l r = true) ∧
    (selected_child comp vs i = .ok (get_right_child_index i) ↔ comp l r = false) ∧
    (comp l r = false → comp r l = false →
      selected_child comp vs i = .ok (get_right_child_index i)) ∧
    sift_down_loop comp nodes_count (fuel + 1) vs i =
      (match selected_child comp vs i with
        | .error e => .error e
        | .ok c => sift_down_try comp nodes_count fuel vs c i) ∧
    (∀ c y, selected_child comp vs i = .ok c → vs[c]? = some y →
      sift_down_try comp nodes_count fuel vs c i =
        if comp y x then sift_down_loop comp nodes_count fuel ((vs.set c x).set i y) c
        else .ok vs) := by
  have hsel := selected_child_of_get comp hl hr
  have hne : get_left_child_index i ≠ get_right_child_index i := by
    unfold get_left_child_index get_right_child_index; omega
  refine ⟨?_, ?_, ?_, ?_, ?_⟩
  · rw [hsel]
    cases comp l r <;> simp [hne, Ne.symm hne]
  · rw [hsel]
    cases comp l r <;> simp [hne, Ne.symm hne]
  · intro h1 _
    rw [hsel, h1]
    rfl
  · have hhr : has_right_child i nodes_count = true := by simp [has_right_child, hn]
    have hhl := has_left_of_has_right hhr
    have hleaf : is_leaf i nodes_count = false := by simp [is_leaf, hhl]
    rw [sift_down_loop_succ, hsel, compare_nodes_of_get hl hr]
    simp only [hleaf, hhl, hhr, Bool.false_eq_true, if_false, Bool.and_self, if_true]
    cases comp l r <;> rfl
  · intro c y _ hc
    exact sift_down_try_of_get nodes_count fuel hc hx

/-- Instance of C15 amended under `less_key`: at the root of `(5,0), (1,1), (1,2)` the
children tie, the right child is selected and swapped with the root. -/
theorem child_selection_witness :
    selected_child less_key [(5, 0), (1, 1), (1, 2)] 0 = .ok 2 ∧
    sift_down less_key [(5, 0), (1, 1), (1, 2)] 0 = .ok [(1, 2), (1, 1), (5, 0)] ∧
    (selected_child less_key [(5, 0), (1, 1), (1, 2)] 0 = .ok (get_right_child_index 0) ↔
      less_key (1, 1) (1, 2) = false) :=
  ⟨rfl, rfl, (child_selection less_key 3 3 [(5, 0), (1, 1), (1, 2)] 0 (1, 1) (1, 2) (5, 0)
    rfl rfl rfl (by decide)).2.1⟩

end binary_heap

namespace rb_heap

variable {α : Type}

theorem mem_std_set_insert {comp : α → α → Bool} {v y : α} :
    ∀ {l : List α}, y ∈ std_set_insert comp v l → y = v ∨ y ∈ l := by
  intro l
  induction l with
  | nil =>
    intro h
    simp only [std_set_insert, List.mem_singleton] at h
    exact Or.inl h
  | cons x rest ih =>
    intro h
    unfold std_set_insert at h
    split at h
    · rcases List.mem_cons.mp h with h1 | h1
      · exact Or.inl h1
      · exact Or.inr h1
    · split at h
      · rcases List.mem_cons.mp h with h1 | h1
        · exact Or.inr (h1 ▸ List.mem_cons_self _ _)
        · rcases ih h1 with h2 | h2
          · exact Or.inl h2
          · exact Or.inr (List.mem_cons_of_mem _ h2)
      · exact Or.inr h

theorem std_set_insert_ordered {comp : α → α → Bool} (hc : strict_weak_ordering comp)
    (v : α) :
    ∀ (l : List α), set_ordered comp l → set_ordered comp (std_set_insert comp v l) := by
  intro l
  induction l with
  | nil =>
    intro _
    simp [std_set_insert, set_ordered]
  | cons x rest ih =>
    intro hord
    unfold set_ordered at hord ih ⊢
    rcases List.pairwise_cons.mp hord with ⟨hx, hrest⟩
    unfold std_set_insert
    split
    · rename_i hvx
      refine List.Pairwise.cons ?_ hord
      intro y hy
      rcases List.mem_cons.mp hy with h1 | h1
      · rw [h1]; exact hvx
      · exact hc.trans v x y hvx (hx y h1)
    · split
      · rename_i hxv
        refine List.Pairwise.cons ?_ (ih hrest)
        intro y hy
        rcases mem_std_set_insert hy with h1 | h1
        · rw [h1]; exact hxv
        · exact hx y h1
      · exact hord

theorem run_set_ordered {comp : α → α → Bool} (hc : strict_weak_ordering comp) :
    ∀ (ops : List (binary_heap.operation α)) (h h' : rb_heap α), h.comp_ = comp →
      set_ordered comp h.values_ → h.run ops = .ok h' →
      h'.comp_ = comp ∧ set_ordered comp h'.values_ := by
  intro ops
  induction ops with
  | nil =>
    intro h h' hcomp hord hrun
    simp only [run, Except.ok.injEq] at hrun
    subst hrun
    exact ⟨hcomp, hord⟩
  | cons op rest ih =>
    intro h h' hcomp hord hrun
    unfold run at hrun
    cases op with
    | push v =>
      simp only [apply_operation] at hrun
      refine ih (h.push v) h' hcomp ?_ hrun
      subst hcomp
      exact std_set_insert_ordered hc v _ hord
    | pop =>
      simp only [apply_operation, pop] at hrun
      cases hem : h.empty with
      | true => simp [hem] at hrun
      | false =>
        simp only [hem, Bool.false_eq_true, if_false] at hrun
        refine ih { h with values_ := h.values_.tail } h' hcomp ?_ hrun
        unfold set_ordered at hord ⊢
        exact List.Pairwise.sublist (List.tail_sublist h.values_) hord

/-- C13. `rb_heap` pop removes exactly the minimum: for a strict weak ordering and a
non-empty `rb_heap` whose `std::set` is in order (as is every state reached from the empty
one by `push`/`pop`), `top` returns the first element, which compares before every other
entry (so no entry compares before it), and `pop` removes that first entry only: the
remaining entries stay in their order and `size` goes down by exactly one. -/
theorem pop_removes_first (h : rb_heap α) (hc : strict_weak_ordering h.comp_)
    (hinv : set_ordered h.comp_ h.values_) (hne : h.empty = false) :
    (∃ t rest, h.values_ = t :: rest ∧ h.top = .ok t ∧
      (∀ x ∈ rest, h.comp_ t x = true) ∧ (∀ x ∈ h.values_, h.comp_ x t = false) ∧
      ∃ h', h.pop = .ok h' ∧ h'.values_ = rest ∧ h'.comp_ = h.comp_ ∧
        h'.size + 1 = h.size) ∧
    (∀ (ops : List (binary_heap.operation α)) (g : rb_heap α),
      (mk_empty h.comp_).run ops = .ok g → set_ordered h.comp_ g.values_) := by
  constructor
  · cases hv : h.values_ with
    | nil => simp [empty, hv] at hne
    | cons t rest =>
      have hord := hinv
      unfold set_ordered at hord
      rw [hv] at hord
      rcases List.pairwise_cons.mp hord with ⟨ht, _⟩
      refine ⟨t, rest, rfl, by simp [top, hv], ht, ?_, ?_⟩
      · intro x hx
        rcases List.mem_cons.mp hx with h1 | h1
        · rw [h1]; exact hc.irrefl t
        · exact hc.asymm (ht x h1)
      · exact ⟨{ h with values_ := rest }, by simp [pop, empty, hv], rfl, rfl,
          by simp [size, hv]⟩
  · intro ops g hrun
    exact (run_set_ordered hc ops (mk_empty h.comp_) g rfl
      (by simp [mk_empty, set_ordered]) hrun).2

/-- Instance of C13 under `std::less<int>`: after push 5, push 3, push 8 the set is
`3, 5, 8`, the top is 3 and `pop` leaves `5, 8`. -/
theorem pop_removes_first_witness :
    (mk_empty less).run [.push 5, .push 3, .push 8] = .ok ⟨[3, 5, 8], less⟩ ∧
    top ⟨[3, 5, 8], less⟩ = .ok 3 ∧ pop ⟨[3, 5, 8], less⟩ = .ok ⟨[5, 8], less⟩ ∧
    ∃ t rest, ([3, 5, 8] : List Int) = t :: rest ∧ top ⟨[3, 5, 8], less⟩ = .ok t ∧
      (∀ x ∈ rest, less t x = true) ∧ (∀ x ∈ ([3, 5, 8] : List Int), less x t = false) ∧
      ∃ h', pop ⟨[3, 5, 8], less⟩ = .ok h' ∧ h'.values_ = rest ∧ h'.comp_ = less ∧
        h'.size + 1 = size ⟨[3, 5, 8], less⟩ :=
  ⟨rfl, rfl, rfl, (pop_removes_first ⟨[3, 5, 8], less⟩ binary_heap.less_strict_weak_ordering
    (by unfold set_ordered; decide) rfl).1⟩

end rb_heap

namespace binary_heap

variable {α : Type}

theorem push_sift_up {h h' : binary_heap α} {v : α} (hrun : h.push v = .ok h') :
    sift_up_loop h.comp_ (h.values_.length + 1) (h.values_ ++ [v]) h.values_.length =
      .ok h'.values_ := by
  unfold push sift_up at hrun
  have hlen : (h.values_ ++ [v]).length - 1 = h.values_.length := by simp
  dsimp only at hrun
  rw [hlen] at hrun
  cases hs : sift_up_loop h.comp_ (h.values_.length + 1) (h.values_ ++ [v]) h.values_.length with
  | error e => simp [hs] at hrun
  | ok vs' =>
    simp only [hs, Except.ok.injEq] at hrun
    subst hrun
    rfl

theorem sift_up_loop_root_kept (comp : α → α → Bool) :
    ∀ (fuel : Nat) (vs : List α) (i : Nat) (vs' : List α) (v t : α),
      sift_up_loop comp fuel vs i = .ok vs' → vs[i]? = some v → vs[0]? = some t →
      comp v t = false → vs'[0]? = some t := by
  intro fuel
  induction fuel with
  | zero => intro vs i vs' v t h; simp [sift_up_loop] at h
  | succ fuel ih =>
    intro vs i vs' v t hrun hv ht hvt
    unfold sift_up_loop at hrun
    by_cases hr : is_root i = true
    · simp only [hr, if_true, Except.ok.injEq] at hrun
      subst hrun
      exact ht
    · have hi0 : 0 < i := by
        simp [is_root] at hr; omega
      have hp := get_parent_index_lt hi0
      simp only [hr, Bool.false_eq_true, if_false] at hrun
      rcases exists_get_of_lt (Nat.lt_trans hp (get_lt_of_some hv)) with ⟨b, hgp⟩
      rw [compare_nodes_of_get hv hgp] at hrun
      cases hvb : comp v b with
      | false =>
        simp only [hvb, Except.ok.injEq] at hrun
        subst hrun
        exact ht
      | true =>
        simp only [hvb, swap_nodes_of_get hv hgp] at hrun
        have hp0 : get_parent_index i ≠ 0 := by
          intro h0
          rw [h0, ht] at hgp
          cases hgp
          rw [hvt] at hvb
          exact absurd hvb (by decide)
        refine ih _ _ _ v t hrun ?_ ?_ hvt
        · rw [swapped_get hv hgp]; simp
        · rw [swapped_get hv hgp]
          have h1 : (0 : Nat) ≠ get_parent_index i := Ne.symm hp0
          have h2 : (0 : Nat) ≠ i := by omega
          simp only [h1, h2, if_false]
          exact ht

theorem sift_up_loop_to_root (comp : α → α → Bool) :
    ∀ (fuel : Nat) (vs : List α) (i : Nat) (vs' : List α) (v : α),
      sift_up_loop comp fuel vs i = .ok vs' → vs[i]? = some v →
      (∀ j y, j < i → vs[j]? = some y → comp v y = true) → vs'[0]? = some v := by
  intro fuel
  induction fuel with
  | zero => intro vs i vs' v h; simp [sift_up_loop] at h
  | succ fuel ih =>
    intro vs i vs' v hrun hv hall
    unfold sift_up_loop at hrun
    by_cases hr : is_root i = true
    · simp only [hr, if_true, Except.ok.injEq] at hrun
      subst hrun
      have hi0 : i = 0 := by simpa [is_root] using hr
      rw [← hi0]
      exact hv
    · have hi0 : 0 < i := by
        simp [is_root] at hr; omega
      have hp := get_parent_index_lt hi0
      simp only [hr, Bool.false_eq_true, if_false] at hrun
      rcases exists_get_of_lt (Nat.lt_trans hp (get_lt_of_some hv)) with ⟨b, hgp⟩
      rw [compare_nodes_of_get hv hgp] at hrun
      have hvb := hall _ b hp hgp
      simp only [hvb, swap_nodes_of_get hv hgp] at hrun
      refine ih _ _ _ v hrun ?_ ?_
      · rw [swapped_get hv hgp]; simp
      · intro j y hj hy
        rw [swapped_get hv hgp] at hy
        have h1 : j ≠ get_parent_index i := by omega
        have h2 : j ≠ i := by omega
        simp only [h1, h2, if_false] at hy
        exact hall j y (by omega) hy

theorem top_eq_ok_iff (h : binary_heap α) (t : α) : h.top = .ok t ↔ h.values_[0]? = some t := by
  unfold top
  cases hg : h.values_[0]? with
  | none => simp
  | some v => simp

/-- C18. Effect of `push` on the top: for a strict weak ordering, a non-empty heap `h`
satisfying the heap-order invariant with top `t`, and a value `v`, `push v` returns a heap
whose top is `v` when `v` compares before `t` and is `t` otherwise; on an empty heap, with
any comparator, the top after `push v` is `v`. -/
theorem push_top (h : binary_heap α) (hc : strict_weak_ordering h.comp_)
    (hord : heap_ordered h.comp_ h.values_) (v t : α) (ht : h.top = .ok t) :
    (∃ h', h.push v = .ok h' ∧ h'.top = .ok (if h.comp_ v t then v else t)) ∧
    (∀ (g : binary_heap α) (w : α), g.empty = true →
      ∃ g', g.push w = .ok g' ∧ g'.top = .ok w) := by
  constructor
  · rcases push_ok h v with ⟨h', e1, _, _⟩
    refine ⟨h', e1, ?_⟩
    have hs := push_sift_up e1
    have ht0 := (top_eq_ok_iff h t).mp ht
    have hlen0 := get_lt_of_some ht0
    have hv : (h.values_ ++ [v])[h.values_.length]? = some v :=
      List.getElem?_concat_length _ _
    rw [top_eq_ok_iff]
    cases hvt : h.comp_ v t with
    | false =>
      simp only [Bool.false_eq_true, if_false]
      refine sift_up_loop_root_kept h.comp_ _ _ _ _ v t hs hv ?_ hvt
      rw [List.getElem?_append_left hlen0]
      exact ht0
    | true =>
      simp only [if_true]
      refine sift_up_loop_to_root h.comp_ _ _ _ _ v hs hv ?_
      intro j y hj hy
      rw [List.getElem?_append_left hj] at hy
      have hyt := root_min hc hord ht0 j y hy
      cases hvy : h.comp_ v y with
      | true => rfl
      | false =>
        have := hc.not_before_trans hyt hvy
        rw [hvt] at this
        exact absurd this (by decide)
  · intro g w hg
    have hnil : g.values_ = [] := by simpa [empty] using hg
    rcases push_ok g w with ⟨g', e1, e2, _⟩
    refine ⟨g', e1, ?_⟩
    rw [hnil] at e2
    have : g'.values_ = [w] := List.perm_singleton.mp e2
    rw [top_eq_ok_iff, this]
    rfl

/-- Instance of C18 under `std::less<int>` on the heap `[3, 5, 8]`: pushing 1 makes 1 the
top, pushing 4 leaves 3 on top. -/
theorem push_top_witness :
    ((push ⟨[3, 5, 8], less⟩ 1).bind top = .ok 1 ∧
      (push ⟨[3, 5, 8], less⟩ 4).bind top = .ok 3) ∧
    ∃ h', push ⟨[3, 5, 8], less⟩ 1 = .ok h' ∧ h'.top = .ok (if less 1 3 then 1 else 3) :=
  ⟨⟨rfl, rfl⟩, (push_top ⟨[3, 5, 8], less⟩ less_strict_weak_ordering
    (by
      intro i a b hi ha hb
      have hlt := get_lt_of_some ha
      simp only [List.length_cons, List.length_nil] at hlt
      have h12 : i = 1 ∨ i = 2 := by omega
      rcases h12 with h1 | h1 <;> subst h1 <;>
        simp [get_parent_index] at ha hb <;> subst ha <;> subst hb <;> decide)
    1 3 rfl).1⟩

end binary_heap

namespace binary_heap

variable {α : Type}

theorem sift_up_loop_traced_fst (comp : α → α → Bool) :
    ∀ (fuel : Nat) (vs : List α) (i : Nat),
      (sift_up_loop_traced comp fuel vs i).1 = sift_up_loop comp fuel vs i := by
  intro fuel
  induction fuel with
  | zero => intro vs i; rfl
  | succ fuel ih =>
    intro vs i
    unfold sift_up_loop_traced sift_up_loop
    dsimp only
    by_cases hr : is_root i = true
    · simp [hr]
    · simp only [hr, Bool.false_eq_true, if_false]
      cases compare_nodes comp vs i (get_parent_index i) with
      | error e => rfl
      | ok b =>
        cases b with
        | false => rfl
        | true =>
          dsimp only
          cases swap_nodes vs i (get_parent_index i) with
          | error e => rfl
          | ok s => exact ih s _

theorem sift_down_try_traced_fst (comp : α → α → Bool) (n fuel : Nat) (vs : List α)
    (c i : Nat) (k : List α → Except Fault (List α) × List event)
    (hk : ∀ s, (k s).1 = sift_down_loop comp n fuel s c) :
    (sift_down_try_traced comp vs c i k).1 = sift_down_try comp n fuel vs c i := by
  unfold sift_down_try_traced sift_down_try
  dsimp only
  cases compare_nodes comp vs c i with
  | error e => rfl
  | ok b =>
    cases b with
    | false => rfl
    | true =>
      dsimp only
      cases swap_nodes vs c i with
      | error e => rfl
      | ok s => exact hk s

theorem sift_down_loop_traced_fst (comp : α → α → Bool) (n : Nat) :
    ∀ (fuel : Nat) (vs : List α) (i : Nat),
      (sift_down_loop_traced comp n fuel vs i).1 = sift_down_loop comp n fuel vs i := by
  intro fuel
  induction fuel with
  | zero => intro vs i; rfl
  | succ fuel ih =>
    intro vs i
    rw [sift_down_loop_succ]
    unfold sift_down_loop_traced
    dsimp only
    have tl := sift_down_try_traced_fst comp n fuel vs (get_left_child_index i) i
      (fun s => sift_down_loop_traced comp n fuel s (get_left_child_index i))
      (fun s => ih s _)
    have tr := sift_down_try_traced_fst comp n fuel vs (get_right_child_index i) i
      (fun s => sift_down_loop_traced comp n fuel s (get_right_child_index i))
      (fun s => ih s _)
    cases is_leaf i n with
    | true => rfl
    | false =>
      simp only [Bool.false_eq_true, if_false]
      cases has_left_child i n <;> cases has_right_child i n <;>
        simp only [Bool.and_self, Bool.and_true, Bool.and_false, Bool.false_eq_true,
          if_false, if_true]
      · exact tr
      · exact tl
      · cases compare_nodes comp vs (get_left_child_index i) (get_right_child_index i) with
        | error e => rfl
        | ok b =>
          cases b with
          | false => exact tr
          | true => exact tl

theorem push_traced_fst (h : binary_heap α) (v : α) : (h.push_traced v).1 = h.push v := by
  unfold push_traced push sift_up_traced sift_up
  dsimp only
  rw [sift_up_loop_traced_fst]
  cases sift_up_loop h.comp_ ((h.values_ ++ [v]).length - 1 + 1) (h.values_ ++ [v])
      ((h.values_ ++ [v]).length - 1) with
  | error e => rfl
  | ok vs => rfl

theorem pop_traced_fst (h : binary_heap α) : h.pop_traced.1 = h.pop := by
  unfold pop_traced pop sift_down_traced sift_down
  cases h.empty with
  | true => rfl
  | false =>
    simp only [Bool.false_eq_true, if_false]
    cases swap_nodes h.values_ 0 (h.values_.length - 1) with
    | error e => rfl
    | ok s =>
      dsimp only
      rw [sift_down_loop_traced_fst]
      cases sift_down_loop h.comp_ s.dropLast.length (s.dropLast.length + 1) s.dropLast 0 with
      | error e => rfl
      | ok vs => rfl

end binary_heap

namespace binary_heap

variable {α : Type}

theorem sift_up_loop_traced_safe (comp : α → α → Bool) :
    ∀ (fuel : Nat) (vs : List α) (i : Nat), i < vs.length →
      (sift_up_loop_traced comp fuel vs i).2.all event.safe = true := by
  intro fuel
  induction fuel with
  | zero => intro vs i _; rfl
  | succ fuel ih =>
    intro vs i hi
    unfold sift_up_loop_traced
    dsimp only
    by_cases hr : is_root i = true
    · simp [hr]
    · have hi0 : 0 < i := by
        simp [is_root] at hr; omega
      have hp := get_parent_index_lt hi0
      rcases exists_get_of_lt hi with ⟨a, hgi⟩
      rcases exists_get_of_lt (Nat.lt_trans hp hi) with ⟨b, hgp⟩
      simp only [hr, Bool.false_eq_true, if_false, compare_nodes_of_get hgi hgp,
        swap_nodes_of_get hgi hgp]
      have hpl : get_parent_index i < vs.length := Nat.lt_trans hp hi
      cases comp a b with
      | false => simp [event.safe, hi0, hi, hpl]
      | true =>
        have hrec := ih ((vs.set i b).set (get_parent_index i) a) (get_parent_index i)
          (by rw [swapped_length]; exact hpl)
        simp [event.safe, hi0, hi, hpl, List.all_append, hrec]

theorem sift_down_try_traced_safe (comp : α → α → Bool) (vs : List α) (c i : Nat)
    (k : List α → Except Fault (List α) × List event)
    (hc : c < vs.length) (hi : i < vs.length)
    (hk : ∀ s, s.length = vs.length → (k s).2.all event.safe = true) :
    (sift_down_try_traced comp vs c i k).2.all event.safe = true := by
  rcases exists_get_of_lt hc with ⟨a, hgc⟩
  rcases exists_get_of_lt hi with ⟨b, hgi⟩
  unfold sift_down_try_traced
  simp only [compare_nodes_of_get hgc hgi, swap_nodes_of_get hgc hgi]
  cases comp a b with
  | false => simp [event.safe, hc, hi]
  | true =>
    have hrec := hk ((vs.set c b).set i a) (swapped_length vs c i a b)
    simp [event.safe, hc, hi, List.all_append, hrec]

theorem sift_down_loop_traced_safe (comp : α → α → Bool) (n : Nat) :
    ∀ (fuel : Nat) (vs : List α) (i : Nat), vs.length = n →
      (sift_down_loop_traced comp n fuel vs i).2.all event.safe = true := by
  intro fuel
  induction fuel with
  | zero => intro vs i _; rfl
  | succ fuel ih =>
    intro vs i hlen
    unfold sift_down_loop_traced
    dsimp only
    cases hleaf : is_leaf i n with
    | true => rfl
    | false =>
      simp only [Bool.false_eq_true, if_false]
      have tl : get_left_child_index i < n →
          (sift_down_try_traced comp vs (get_left_child_index i) i
            (fun s => sift_down_loop_traced comp n fuel s (get_left_child_index i))).2.all
            event.safe = true := by
        intro hl
        refine sift_down_try_traced_safe comp vs _ i _ (hlen ▸ hl) ?_ ?_
        · unfold get_left_child_index at hl; omega
        · intro s hs
          exact ih s _ (hs.trans hlen)
      have tr : get_right_child_index i < n →
          (sift_down_try_traced comp vs (get_right_child_index i) i
            (fun s => sift_down_loop_traced comp n fuel s (get_right_child_index i))).2.all
            event.safe = true := by
        intro hr
        refine sift_down_try_traced_safe comp vs _ i _ (hlen ▸ hr) ?_ ?_
        · unfold get_right_child_index at hr; omega
        · intro s hs
          exact ih s _ (hs.trans hlen)
      cases hhl : has_left_child i n <;> cases hhr : has_right_child i n <;>
        simp only [Bool.and_self, Bool.and_true, Bool.and_false, Bool.false_eq_true,
          if_false, if_true]
      · rfl
      · exact tr (by simpa [has_right_child] using hhr)
      · exact tl (by simpa [has_left_child] using hhl)
      · have hl : get_left_child_index i < n := by simpa [has_left_child] using hhl
        have hr : get_right_child_index i < n := by simpa [has_right_child] using hhr
        rcases exists_get_of_lt (hlen ▸ hl) with ⟨x, hgl⟩
        rcases exists_get_of_lt (hlen ▸ hr) with ⟨y, hgr⟩
        rw [compare_nodes_of_get hgl hgr]
        cases comp x y with
        | false => simp [event.safe, hlen, hl, hr, List.all_append, tr hr]
        | true => simp [event.safe, hlen, hl, hr, List.all_append, tl hl]

theorem push_traced_safe (h : binary_heap α) (v : α) :
    (h.push_traced v).2.all event.safe = true := by
  have hs := sift_up_loop_traced_safe h.comp_ ((h.values_ ++ [v]).length - 1 + 1)
    (h.values_ ++ [v]) ((h.values_ ++ [v]).length - 1) (by simp)
  unfold push_traced sift_up_traced
  dsimp only
  cases (sift_up_loop_traced h.comp_ ((h.values_ ++ [v]).length - 1 + 1) (h.values_ ++ [v])
      ((h.values_ ++ [v]).length - 1)).1 with
  | error e =>
    simp only [List.all_cons, hs, Bool.and_true]
    simp [event.safe]
  | ok vs =>
    simp only [List.all_cons, hs, Bool.and_true]
    simp [event.safe]

theorem pop_traced_safe (h : binary_heap α) (hne : h.empty = false) :
    h.pop_traced.2.all event.safe = true := by
  have hpos := (empty_eq_false_iff h).mp hne
  rcases exists_get_of_lt hpos with ⟨t, hg0⟩
  rcases exists_get_of_lt (show h.values_.length - 1 < h.values_.length by omega) with ⟨z, hgl⟩
  unfold pop_traced sift_down_traced
  simp only [hne, Bool.false_eq_true, if_false, swap_nodes_of_get hg0 hgl]
  have hs := sift_down_loop_traced_safe h.comp_
    ((h.values_.set 0 z).set (h.values_.length - 1) t).dropLast.length
    (((h.values_.set 0 z).set (h.values_.length - 1) t).dropLast.length + 1)
    ((h.values_.set 0 z).set (h.values_.length - 1) t).dropLast 0 rfl
  cases (sift_down_loop_traced h.comp_
      ((h.values_.set 0 z).set (h.values_.length - 1) t).dropLast.length
      (((h.values_.set 0 z).set (h.values_.length - 1) t).dropLast.length + 1)
      ((h.values_.set 0 z).set (h.values_.length - 1) t).dropLast 0).1 with
  | error e =>
    simp only [List.all_append, hs, List.all_cons, List.all_nil, Bool.and_true]
    simp [event.safe, hpos]
  | ok vs =>
    simp only [List.all_append, hs, List.all_cons, List.all_nil, Bool.and_true]
    simp [event.safe, hpos]

end binary_heap

namespace binary_heap

variable {α : Type}

theorem log_parent_succ {i : Nat} (h : 0 < i) :
    Nat.log 2 (get_parent_index i + 1) + 1 = Nat.log 2 (i + 1) := by
  rw [Nat.log_of_one_lt_of_le (by decide : 1 < 2) (by omega : 2 ≤ i + 1)]
  have : (i + 1) / 2 = get_parent_index i + 1 := by
    unfold get_parent_index; omega
  rw [this]

theorem log_child_succ {c i : Nat} (hc : get_parent_index c = i) (h0 : 0 < c) :
    Nat.log 2 (c + 1) = Nat.log 2 (i + 1) + 1 := by
  rw [← hc]
  exact (log_parent_succ h0).symm

theorem swap_count_append (a b : List event) :
    swap_count (a ++ b) = swap_count a + swap_count b := by
  simp [swap_count, List.countP_append]

theorem sift_up_loop_traced_swaps (comp : α → α → Bool) :
    ∀ (fuel : Nat) (vs : List α) (i : Nat),
      swap_count (sift_up_loop_traced comp fuel vs i).2 ≤ Nat.log 2 (i + 1) := by
  intro fuel
  induction fuel with
  | zero => intro vs i; simp [sift_up_loop_traced, swap_count]
  | succ fuel ih =>
    intro vs i
    unfold sift_up_loop_traced
    dsimp only
    by_cases hr : is_root i = true
    · simp [hr, swap_count]
    · have hi0 : 0 < i := by
        simp [is_root] at hr; omega
      have hlog := log_parent_succ hi0
      simp only [hr, Bool.false_eq_true, if_false]
      cases compare_nodes comp vs i (get_parent_index i) with
      | error e => simp [swap_count, event.is_swap]
      | ok b =>
        cases b with
        | false => simp [swap_count, event.is_swap]
        | true =>
          dsimp only
          cases swap_nodes vs i (get_parent_index i) with
          | error e =>
            simp [swap_count, event.is_swap]
            omega
          | ok s =>
            have := ih s (get_parent_index i)
            simp only [swap_count_append]
            simp only [swap_count, List.countP_cons, List.countP_nil, event.is_swap] at this ⊢
            simp
            omega

theorem sift_down_try_traced_swaps (comp : α → α → Bool) (vs : List α) (c i : Nat)
    (k : List α → Except Fault (List α) × List event) (bound : Nat)
    (hk : ∀ s, swap_count (k s).2 ≤ bound) :
    swap_count (sift_down_try_traced comp vs c i k).2 ≤ bound + 1 := by
  unfold sift_down_try_traced
  dsimp only
  cases compare_nodes comp vs c i with
  | error e => simp [swap_count, event.is_swap]
  | ok b =>
    cases b with
    | false => simp [swap_count, event.is_swap]
    | true =>
      dsimp only
      cases swap_nodes vs c i with
      | error e => simp [swap_count, event.is_swap]
      | ok s =>
        have := hk s
        simp only [swap_count_append]
        simp only [swap_count, List.countP_cons, List.countP_nil, event.is_swap] at this ⊢
        simp
        omega

theorem sift_down_loop_traced_swaps (comp : α → α → Bool) (n : Nat) :
    ∀ (fuel : Nat) (vs : List α) (i : Nat), i < n →
      swap_count (sift_down_loop_traced comp n fuel vs i).2 + Nat.log 2 (i + 1) ≤
        Nat.log 2 n := by
  intro fuel
  induction fuel with
  | zero =>
    intro vs i hi
    simp only [sift_down_loop_traced, swap_count, List.countP_nil, Nat.zero_add]
    exact Nat.log_mono_right (by omega)
  | succ fuel ih =>
    intro vs i hi
    have hmono : Nat.log 2 (i + 1) ≤ Nat.log 2 n := Nat.log_mono_right (by omega)
    unfold sift_down_loop_traced
    dsimp only
    have hpl : get_parent_index (get_left_child_index i) = i := by
      unfold get_parent_index get_left_child_index; omega
    have hpr : get_parent_index (get_right_child_index i) = i := by
      unfold get_parent_index get_right_child_index; omega
    have tl : get_left_child_index i < n →
        swap_count (sift_down_try_traced comp vs (get_left_child_index i) i
          (fun s => sift_down_loop_traced comp n fuel s (get_left_child_index i))).2 +
          Nat.log 2 (i + 1) ≤ Nat.log 2 n := by
      intro hl
      have hlog := log_child_succ hpl (by unfold get_left_child_index; omega)
      have hm : Nat.log 2 (get_left_child_index i + 1) ≤ Nat.log 2 n :=
        Nat.log_mono_right (by omega)
      have := sift_down_try_traced_swaps comp vs (get_left_child_index i) i
        (fun s => sift_down_loop_traced comp n fuel s (get_left_child_index i))
        (Nat.log 2 n - Nat.log 2 (get_left_child_index i + 1))
        (fun s => by have := ih s _ hl; dsimp only; omega)
      omega
    have tr : get_right_child_index i < n →
        swap_count (sift_down_try_traced comp vs (get_right_child_index i) i
          (fun s => sift_down_loop_traced comp n fuel s (get_right_child_index i))).2 +
          Nat.log 2 (i + 1) ≤ Nat.log 2 n := by
      intro hr
      have hlog := log_child_succ hpr (by unfold get_right_child_index; omega)
      have hm : Nat.log 2 (get_right_child_index i + 1) ≤ Nat.log 2 n :=
        Nat.log_mono_right (by omega)
      have := sift_down_try_traced_swaps comp vs (get_right_child_index i) i
        (fun s => sift_down_loop_traced comp n fuel s (get_right_child_index i))
        (Nat.log 2 n - Nat.log 2 (get_right_child_index i + 1))
        (fun s => by have := ih s _ hr; dsimp only; omega)
      omega
    cases is_leaf i n with
    | true => simpa [swap_count] using hmono
    | false =>
      simp only [Bool.false_eq_true, if_false]
      cases hhl : has_left_child i n <;> cases hhr : has_right_child i n <;>
        simp only [Bool.and_self, Bool.and_true, Bool.and_false, Bool.false_eq_true,
          if_false, if_true]
      · simpa [swap_count] using hmono
      · exact tr (by simpa [has_right_child] using hhr)
      · exact tl (by simpa [has_left_child] using hhl)
      · have hl : get_left_child_index i < n := by simpa [has_left_child] using hhl
        have hr : get_right_child_index i < n := by simpa [has_right_child] using hhr
        cases compare_nodes comp vs (get_left_child_index i) (get_right_child_index i) with
        | error e => simpa [swap_count, event.is_swap] using hmono
        | ok b =>
          cases b with
          | false =>
            have := tr hr
            simp only [swap_count_append]
            simp only [swap_count, List.countP_cons, List.countP_nil, event.is_swap] at this ⊢
            simpa using this
          | true =>
            have := tl hl
            simp only [swap_count_append]
            simp only [swap_count, List.countP_cons, List.countP_nil, event.is_swap] at this ⊢
            simpa using this

theorem compare_nodes_error {comp : α → α → Bool} {vs : List α} {i j : Nat} {e : Fault}
    (h : compare_nodes comp vs i j = .error e) : e = .out_of_range := by
  unfold compare_nodes at h
  split at h
  · cases h
  · cases h
    rfl

theorem swap_nodes_error {vs : List α} {i j : Nat} {e : Fault}
    (h : swap_nodes vs i j = .error e) : e = .out_of_range := by
  unfold swap_nodes at h
  split at h
  · cases h
  · cases h
    rfl

theorem sift_up_loop_not_exhausted (comp : α → α → Bool) :
    ∀ (fuel : Nat) (vs : List α) (i : Nat), i < fuel →
      sift_up_loop comp fuel vs i ≠ .error .fuel_exhausted := by
  intro fuel
  induction fuel with
  | zero => intro vs i h; omega
  | succ fuel ih =>
    intro vs i hf
    unfold sift_up_loop
    by_cases hr : is_root i = true
    · simp [hr]
    · have hi0 : 0 < i := by
        simp [is_root] at hr; omega
      have hp := get_parent_index_lt hi0
      simp only [hr, Bool.false_eq_true, if_false]
      cases hcmp : compare_nodes comp vs i (get_parent_index i) with
      | error e =>
        rw [compare_nodes_error hcmp]
        simp
      | ok b =>
        cases b with
        | false => simp
        | true =>
          dsimp only
          cases hsw : swap_nodes vs i (get_parent_index i) with
          | error e =>
            rw [swap_nodes_error hsw]
            simp
          | ok s => exact ih s _ (by omega)

theorem sift_down_total (comp : α → α → Bool) (vs : List α) (i : Nat) :
    ∃ vs', sift_down comp vs i = .ok vs' := by
  unfold sift_down
  by_cases hi : i ≤ vs.length
  · rcases sift_down_loop_ok comp vs.length (vs.length + 1) vs i rfl (by omega) hi with
      ⟨vs', h1, _⟩
    exact ⟨vs', h1⟩
  · refine ⟨vs, ?_⟩
    rw [sift_down_loop_succ]
    have : is_leaf i vs.length = true := by
      simp only [is_leaf, has_left_child, has_right_child, get_left_child_index,
        get_right_child_index, Bool.and_eq_true, Bool.not_eq_true', decide_eq_false_iff_not]
      omega
    rw [if_pos this]

end binary_heap

namespace binary_heap

variable {α : Type}

theorem get_left_child_index_size_t_eq {i : Nat} (h : 2 * i + 2 < 2 ^ 64) :
    get_left_child_index_size_t i = get_left_child_index i := by
  unfold get_left_child_index_size_t get_left_child_index size_t_range
  exact Nat.mod_eq_of_lt (by omega)

theorem get_right_child_index_size_t_eq {i : Nat} (h : 2 * i + 2 < 2 ^ 64) :
    get_right_child_index_size_t i = get_right_child_index i := by
  unfold get_right_child_index_size_t get_right_child_index size_t_range
  exact Nat.mod_eq_of_lt h

theorem sift_down_loop_size_t_eq (comp : α → α → Bool) (n : Nat) (hn : n < 2 ^ 63) :
    ∀ (fuel : Nat) (vs : List α) (i : Nat), 2 * i + 2 < 2 ^ 64 →
      sift_down_loop_size_t comp n fuel vs i = sift_down_loop comp n fuel vs i := by
  intro fuel
  induction fuel with
  | zero => intro vs i _; rfl
  | succ fuel ih =>
    intro vs i hi
    unfold sift_down_loop_size_t sift_down_loop
    simp only [is_leaf_size_t, has_left_child_size_t, has_right_child_size_t, is_leaf,
      has_left_child, has_right_child, get_left_child_index_size_t_eq hi,
      get_right_child_index_size_t_eq hi]
    have cl : get_left_child_index i < n → 2 * get_left_child_index i + 2 < 2 ^ 64 := by
      intro h; omega
    have cr : get_right_child_index i < n → 2 * get_right_child_index i + 2 < 2 ^ 64 := by
      intro h; omega
    by_cases hl : get_left_child_index i < n <;> by_cases hr : get_right_child_index i < n <;>
      simp only [hl, hr, decide_True, decide_False, Bool.not_true, Bool.not_false,
        Bool.and_self, Bool.and_true, Bool.and_false, Bool.false_eq_true, if_false, if_true]
    · cases compare_nodes comp vs (get_left_child_index i) (get_right_child_index i) with
      | error e => rfl
      | ok b =>
        cases b with
        | false =>
          dsimp only
          cases compare_nodes comp vs (get_right_child_index i) i with
          | error e => rfl
          | ok b =>
            cases b with
            | false => rfl
            | true =>
              dsimp only
              cases swap_nodes vs (get_right_child_index i) i with
              | error e => rfl
              | ok s => exact ih s _ (cr hr)
        | true =>
          dsimp only
          cases compare_nodes comp vs (get_left_child_index i) i with
          | error e => rfl
          | ok b =>
            cases b with
            | false => rfl
            | true =>
              dsimp only
              cases swap_nodes vs (get_left_child_index i) i with
              | error e => rfl
              | ok s => exact ih s _ (cl hl)
    · cases compare_nodes comp vs (get_left_child_index i) i with
      | error e => rfl
      | ok b =>
        cases b with
        | false => rfl
        | true =>
          dsimp only
          cases swap_nodes vs (get_left_child_index i) i with
          | error e => rfl
          | ok s => exact ih s _ (cl hl)
    · cases compare_nodes comp vs (get_right_child_index i) i with
      | error e => rfl
      | ok b =>
        cases b with
        | false => rfl
        | true =>
          dsimp only
          cases swap_nodes vs (get_right_child_index i) i with
          | error e => rfl
          | ok s => exact ih s _ (cr hr)

/-- C16 as stated fails on the code: at the start index `2^63`, a value of `std::size_t`,
on an array of five elements `2 * node_index + 1` and `2 * node_index + 2` wrap to 1 and
2, so `sift_down` sees two children whose indices are not larger than the node, and its
comparison of the selected child with the node reads `values_[2^63]`, outside the array. -/
theorem sift_down_wraps_at_large_index :
    2 ^ 63 < size_t_range ∧
    get_left_child_index_size_t (2 ^ 63) = 1 ∧ get_right_child_index_size_t (2 ^ 63) = 2 ∧
    has_left_child_size_t (2 ^ 63) 5 = true ∧ has_right_child_size_t (2 ^ 63) 5 = true ∧
    is_leaf_size_t (2 ^ 63) 5 = false ∧
    ¬ (2 ^ 63 < get_left_child_index_size_t (2 ^ 63)) ∧
    ¬ (2 ^ 63 < get_right_child_index_size_t (2 ^ 63)) ∧
    sift_down_size_t less [1, 2, 3, 4, 5] (2 ^ 63) = .error .out_of_range :=
  ⟨by decide, by decide, by decide, by decide, by decide, by decide, by decide, by decide,
    rfl⟩

/-- C16 amended. Sift loops terminate with logarithmic swap counts. For every array,
comparator and start index, `sift_up` never runs out of iterations (and returns an array
when the index is inside the array), an iteration moves a non-root index to a strictly
smaller one, and `sift_up` from index `j` makes at most `floor(log2(j + 1))` swaps. For
every array of fewer than `2^63` elements, comparator and start index `i` for which
`2 * i + 2` does not overflow `std::size_t`, `sift_down` on `std::size_t` indices returns
an array, the same as with unbounded indices, and an iteration moves to a child index
strictly larger and below the size; from 0 on `1 <= n < 2^63` elements it makes at most
`floor(log2(n))` swaps. -/
theorem sift_loops_terminate (comp : α → α → Bool) (vs : List α) (i : Nat)
    (hn : vs.length < 2 ^ 63) (hi : 2 * i + 2 < 2 ^ 64) :
    (∀ (ws : List α) (j : Nat),
      sift_up comp ws j ≠ .error .fuel_exhausted ∧
      (j < ws.length → ∃ ws', sift_up comp ws j = .ok ws') ∧
      (is_root j = false → get_parent_index j < j) ∧
      (sift_up_traced comp ws j).1 = sift_up comp ws j ∧
      swap_count (sift_up_traced comp ws j).2 ≤ Nat.log 2 (j + 1)) ∧
    sift_down_size_t comp vs i = sift_down comp vs i ∧
    (∃ vs', sift_down_size_t comp vs i = .ok vs') ∧
    (has_left_child_size_t i vs.length = true →
      i < get_left_child_index_size_t i ∧ get_left_child_index_size_t i < vs.length) ∧
    (has_right_child_size_t i vs.length = true →
      i < get_right_child_index_size_t i ∧ get_right_child_index_size_t i < vs.length) ∧
    (sift_down_traced comp vs 0).1 = sift_down_size_t comp vs 0 ∧
    (1 ≤ vs.length → swap_count (sift_down_traced comp vs 0).2 ≤ Nat.log 2 vs.length) := by
  have hbridge := sift_down_loop_size_t_eq comp vs.length hn (vs.length + 1) vs
  refine ⟨?_, hbridge i hi, ?_, ?_, ?_, ?_, ?_⟩
  · intro ws j
    refine ⟨sift_up_loop_not_exhausted comp _ ws j (Nat.lt_succ_self j), ?_, ?_,
      sift_up_loop_traced_fst comp _ ws j, sift_up_loop_traced_swaps comp _ ws j⟩
    · intro hj
      rcases sift_up_loop_ok comp (j + 1) ws j (Nat.lt_succ_self j) hj with ⟨ws', h1, _⟩
      exact ⟨ws', h1⟩
    · intro hr
      exact get_parent_index_lt (by simp [is_root] at hr; omega)
  · rcases sift_down_total comp vs i with ⟨vs', h1⟩
    exact ⟨vs', (hbridge i hi).trans h1⟩
  · intro hl
    simp only [has_left_child_size_t, get_left_child_index_size_t_eq hi, get_left_child_index,
      decide_eq_true_eq] at hl ⊢
    omega
  · intro hr
    simp only [has_right_child_size_t, get_right_child_index_size_t_eq hi,
      get_right_child_index, decide_eq_true_eq] at hr ⊢
    omega
  · exact (sift_down_loop_traced_fst comp _ _ vs 0).trans (hbridge 0 (by decide)).symm
  · intro h1
    have := sift_down_loop_traced_swaps comp vs.length (vs.length + 1) vs 0 (by omega)
    simpa [sift_down_traced] using this

/-- Instance of C16 amended under `std::less<int>`: `sift_down` from 0 on `9, 1, 2, 3`
returns `1, 3, 2, 9` after two swaps, the bound `floor(log2(4))`. -/
theorem sift_loops_terminate_witness :
    sift_down_size_t less [9, 1, 2, 3] 0 = .ok [1, 3, 2, 9] ∧
    swap_count (sift_down_traced less [9, 1, 2, 3] 0).2 = 2 ∧
    swap_count (sift_down_traced less [9, 1, 2, 3] 0).2 ≤
      Nat.log 2 ([9, 1, 2, 3] : List Int).length :=
  ⟨rfl, rfl, (sift_loops_terminate less [9, 1, 2, 3] 0 (by decide) (by decide)).2.2.2.2.2.2
    (by decide)⟩

/-- C17. Index safety of `binary_heap`: for every heap state, comparator and value, every
`compare_nodes` and `swap_nodes` call made by `push`, and by `pop` on a non-empty heap,
uses indices below the current length of `values_`, and every `std::size_t` decrement
(`node_index - 1` in `get_parent_index`, `size() - 1` in `push` and `pop`) is applied to
a positive value; both calls return a heap. On a one-element heap `pop` swaps index 0 with
itself and `sift_down` touches no element. -/
theorem index_safety (h : binary_heap α) (v : α) :
    ((h.push_traced v).1 = h.push v ∧ (h.push_traced v).2.all event.safe = true ∧
      ∃ h', h.push v = .ok h') ∧
    (h.pop_traced.1 = h.pop ∧
      (h.empty = false → h.pop_traced.2.all event.safe = true ∧ ∃ h', h.pop = .ok h')) ∧
    (∀ (comp : α → α → Bool) (x : α),
      pop_traced ⟨[x], comp⟩ = (.ok ⟨[], comp⟩, [event.decrement 1, event.swap 0 0 1])) := by
  refine ⟨⟨push_traced_fst h v, push_traced_safe h v, ?_⟩, ⟨pop_traced_fst h, ?_⟩, ?_⟩
  · rcases push_ok h v with ⟨h', e1, _, _⟩
    exact ⟨h', e1⟩
  · intro hne
    rcases pop_ok h hne with ⟨_, h', _, e1, _, _⟩
    exact ⟨pop_traced_safe h hne, h', e1⟩
  · intro comp x
    rfl

end binary_heap

/-- C12 as stated fails on the code: `top` on an empty queue does not reach the fatal
assertion, in `binary_heap` and in `rb_heap`; what it does is read outside the container. -/
theorem empty_top_not_enforced :
    (binary_heap.top (binary_heap.mk_empty less) ≠ .error .assertion_failed ∧
      binary_heap.top (binary_heap.mk_empty less) = .error .out_of_range) ∧
    (rb_heap.top (rb_heap.mk_empty less) ≠ .error .assertion_failed ∧
      rb_heap.top (rb_heap.mk_empty less) = .error .out_of_range) := by
  refine ⟨⟨?_, rfl⟩, ?_, rfl⟩
  · intro h
    have e : binary_heap.top (binary_heap.mk_empty less) = .error .out_of_range := rfl
    rw [e] at h
    cases h
  · intro h
    have e : rb_heap.top (rb_heap.mk_empty less) = .error .out_of_range := rfl
    rw [e] at h
    cases h

/-- C12 amended. Calls on an empty queue, for `binary_heap` and `rb_heap`: `pop` reaches the
fatal assertion instead of returning a queue; `top` has no check and reads outside the
container (`values_[0]`, `*cbegin()`), which yields no value. On a non-empty queue `top`
returns a value and `pop` returns a queue. -/
theorem empty_queue_calls {α : Type} (h : binary_heap α) (g : rb_heap α) :
    (h.empty = true → h.pop = .error .assertion_failed ∧ h.top = .error .out_of_range) ∧
    (h.empty = false → (∃ t, h.top = .ok t) ∧ ∃ h', h.pop = .ok h') ∧
    (g.empty = true → g.pop = .error .assertion_failed ∧ g.top = .error .out_of_range) ∧
    (g.empty = false → (∃ t, g.top = .ok t) ∧ ∃ g', g.pop = .ok g') := by
  refine ⟨?_, ?_, ?_, ?_⟩
  · intro he
    have hnil : h.values_ = [] := by simpa [binary_heap.empty] using he
    exact ⟨binary_heap.pop_empty h he, by simp [binary_heap.top, hnil]⟩
  · intro hne
    rcases binary_heap.pop_ok h hne with ⟨t, h', e1, e2, _, _⟩
    exact ⟨⟨t, e1⟩, h', e2⟩
  · intro he
    have hnil : g.values_ = [] := by simpa [rb_heap.empty] using he
    exact ⟨by simp [rb_heap.pop, he], by simp [rb_heap.top, hnil]⟩
  · intro hne
    cases hv : g.values_ with
    | nil => simp [rb_heap.empty, hv] at hne
    | cons t rest =>
      exact ⟨⟨t, by simp [rb_heap.top, hv]⟩, { g with values_ := g.values_.tail },
        by simp [rb_heap.pop, hne]⟩

end heap
